import Mathlib

/-!
# Verification of the `validators` package

A shallow embedding of `validators/validators.go` (the checks `Indentation`, `Space`, `Tab`,
`TrailingWhitespace`, `FinalNewline`, `LineEnding`) together with the two library facilities the
checks are written with: `regexp.MatchString` and `strings.Split`.

Modelling conventions.

* A Go `string` is a Lean `String`; its content is read as the list of its characters
  (`String.data`). Every character the code tests for (space, tab, asterisk, line feed,
  carriage return) is a single byte that never occurs inside a longer encoded character, so
  emptiness, the positions of these characters and the number of occurrences of `"\n"`, `"\r"`
  and `"\r\n"` are the same whether the text is read by bytes or by characters.
* A Go `int` is a Lean `Int`.
* A call of a validator ends in one of three ways, see `Result`.
-/

/-! ## The pattern matcher (`regexp`) -/

namespace regexp

/-- Syntax tree of a pattern, for the constructs that the patterns of `validators.go` use. -/
inductive Regex where
  /-- one literal character, like a space, or an escaped one such as `\*` -/
  | lit (c : Char)
  /-- character class: `[...]` when `negated = false`, `[^...]` when `negated = true` -/
  | cls (negated : Bool) (cs : List Char)
  /-- `.`: any character but the line feed -/
  | dot
  /-- `^`: the beginning of the text -/
  | bot
  /-- `$`: the end of the text -/
  | eot
  /-- the empty pattern -/
  | emp
  /-- concatenation -/
  | cat (a b : Regex)
  /-- alternation `a|b` -/
  | alt (a b : Regex)
  /-- `a*` -/
  | star (a : Regex)
  /-- `a+` -/
  | plus (a : Regex)
  /-- `a?` -/
  | quest (a : Regex)
  /-- counted repetition `a{n}` -/
  | rep (a : Regex) (n : Nat)
  deriving DecidableEq, Repr

/-- Error of the pattern compiler. -/
inductive Error where
  /-- `invalid repeat count`: a counted repetition above the limit of 1000 -/
  | ErrInvalidRepeatSize
  deriving DecidableEq, Repr

/-- Check of `regexp/syntax` on nested counted repetitions: the product of the counts on a path
of the tree stays within `n`. -/
def repeatIsValid : Regex → Nat → Bool
  | .rep a m, n => if m = 0 then true else if m > n then false else repeatIsValid a (n / m)
  | .cat a b, n => repeatIsValid a n && repeatIsValid b n
  | .alt a b, n => repeatIsValid a n && repeatIsValid b n
  | .star a, n => repeatIsValid a n
  | .plus a, n => repeatIsValid a n
  | .quest a, n => repeatIsValid a n
  | _, _ => true

/-- What the parser checks at every counted repetition `a{n}`: the count is at most 1000 and, for
a count of two or more, so is the product with the counts nested inside. -/
def repeatSizesOK : Regex → Bool
  | .rep a n => repeatSizesOK a && decide (n ≤ 1000) && (decide (n < 2) || repeatIsValid (.rep a n) 1000)
  | .cat a b => repeatSizesOK a && repeatSizesOK b
  | .alt a b => repeatSizesOK a && repeatSizesOK b
  | .star a => repeatSizesOK a
  | .plus a => repeatSizesOK a
  | .quest a => repeatSizesOK a
  | _ => true

/-- Iteration of a one-step matcher `f` any number of times. An iteration that consumes nothing
leads to no new position, so only consuming iterations are followed; `fuel` bounds their number. -/
def starLoop (f : List Char → List (List Char)) : Nat → List Char → List (List Char)
  | 0, s => [s]
  | fuel + 1, s => s :: ((f s).filter (fun r => decide (r.length < s.length))).flatMap (starLoop f fuel)

/-- Iteration of a one-step matcher `f` exactly `n` times. -/
def repLoop (f : List Char → List (List Char)) : Nat → List Char → List (List Char)
  | 0, s => [s]
  | n + 1, s => (f s).flatMap (repLoop f n)

/-- All the ways a pattern can match at a position of `text`. The position is given by the part
`s` of `text` that is still to be read; the result lists what is left to read after each possible
match. -/
def ends (text : List Char) : Regex → List Char → List (List Char)
  | .lit c, s =>
    match s with
    | x :: xs => if x = c then [xs] else []
    | [] => []
  | .cls negated cs, s =>
    match s with
    | x :: xs => if (decide (x ∈ cs)) != negated then [xs] else []
    | [] => []
  | .dot, s =>
    match s with
    | x :: xs => if x = '\n' then [] else [xs]
    | [] => []
  | .bot, s => if s.length = text.length then [s] else []
  | .eot, s => if s = [] then [s] else []
  | .emp, s => [s]
  | .cat a b, s => (ends text a s).flatMap (ends text b)
  | .alt a b, s => ends text a s ++ ends text b s
  | .star a, s => starLoop (ends text a) s.length s
  | .plus a, s => (ends text a s).flatMap (fun r => starLoop (ends text a) r.length r)
  | .quest a, s => ends text a s ++ [s]
  | .rep a n, s => repLoop (ends text a) n s

/-- Syntax tree of a pattern text made of ordinary characters only (none of
`\ . + * ? ( ) | [ ] { } ^ $`): the characters one after another. -/
def literal : List Char → Regex
  | [] => .emp
  | c :: cs => .cat (.lit c) (literal cs)

/-- Unanchored search: the pattern matches somewhere in the text. -/
def search (re : Regex) (text : List Char) : Bool :=
  text.tails.any (fun s => !(ends text re s).isEmpty)

/-- Model of `regexp.MatchString(pattern, s)`, the pattern given as its syntax tree: the compile
error if the pattern does not compile, else whether the pattern matches somewhere in `s`. -/
def MatchString (pattern : Regex) (s : String) : Except Error Bool :=
  if repeatSizesOK pattern then .ok (search pattern s.data) else .error .ErrInvalidRepeatSize

end regexp

/-! ## Splitting a text (`strings`) -/

namespace strings

/-- Scan of `Split` for a non-empty separator: `cur` holds, in reverse, the piece being read and
`skip` the number of characters of a separator just found that are still to be passed over. -/
def splitScan (sep : List Char) : Nat → List Char → List Char → List (List Char)
  | _, cur, [] => [cur.reverse]
  | skip + 1, cur, _ :: s => splitScan sep skip cur s
  | 0, cur, c :: s =>
    if sep.isPrefixOf (c :: s) then cur.reverse :: splitScan sep (sep.length - 1) [] s
    else splitScan sep 0 (c :: cur) s

/-- Model of `strings.Split(s, sep)`: the pieces of `s` between the occurrences of `sep`, found
from left to right without overlap; one piece more than there are occurrences. With an empty
separator the text is split after each character (no piece at all for the empty text). -/
def Split (s sep : String) : List String :=
  if sep.data = [] then s.data.map (fun c => String.mk [c])
  else (splitScan sep.data 0 [] s.data).map String.mk

/-- Number of places of a text where a carriage return is immediately followed by a line feed
(used to state what the length of `Split` by `"\r\n"` is). -/
def crlfCount : List Char → Nat
  | [] => 0
  | c :: s => (if c = '\r' ∧ s.head? = some '\n' then 1 else 0) + crlfCount s

end strings

/-! ## The resolver of line terminators (`utils`) -/

namespace utils

/-- Modelled from the spec: `utils.GetEolChar`, which the validators call, is not in the sources
at hand. The spec describes it as the lookup that maps `"lf"`, `"cr"` and `"crlf"` to their
literal terminators, and any other kind to the empty text. The validators below take the resolver
as a parameter; this definition is the instance the spec describes. -/
def GetEolChar (endOfLine : String) : String :=
  if endOfLine = "lf" then "\n"
  else if endOfLine = "cr" then "\r"
  else if endOfLine = "crlf" then "\r\n"
  else ""

end utils

/-! ## The validators -/

/-- How a call of a validator ends. -/
inductive Result where
  /-- the validator returned `nil`: the input conforms -/
  | nil
  /-- the validator returned an error value with this message: a violation -/
  | err (msg : String)
  /-- the validator aborted in `panic(err)` -/
  | panic (e : regexp.Error)
  deriving DecidableEq, Repr

namespace validators

open regexp (Regex)

/-- The pattern `"^\t*[^ \t]"` of `Tab`. -/
def tabPattern : Regex :=
  .cat .bot (.cat (.star (.lit '\t')) (.cls true [' ', '\t']))

/-- The pattern `fmt.Sprintf("^( {%d})*( \\* ?|[^ \t])", indentSize)` of `Space`, for a
positive `indentSize`. -/
def spacePattern (indentSize : Int) : Regex :=
  .cat .bot
    (.cat (.star (.rep (.lit ' ') indentSize.toNat))
      (.alt (.cat (.lit ' ') (.cat (.lit '*') (.quest (.lit ' ')))) (.cls true [' ', '\t'])))

/-- Model of `Space`: validates if a line is indented correctly respecting the `indentSize`. -/
def Space (line : String) (indentSize : Int) : Result :=
  if line.length > 0 ∧ indentSize > 0 then
    match regexp.MatchString (spacePattern indentSize) line with
    | .error e => .panic e
    | .ok matched =>
      if !matched then
        .err ("Wrong amount of left-padding spaces(want multiple of " ++ toString indentSize ++ ")")
      else .nil
  else .nil

/-- Model of `Tab`: validates if a line is indented with only tabs. -/
def Tab (line : String) : Result :=
  if line.length > 0 then
    match regexp.MatchString tabPattern line with
    | .error e => .panic e
    | .ok matched =>
      if !matched then .err "Wrong indentation type(spaces instead of tabs)" else .nil
  else .nil

/-- Model of `Indentation`: validates a files indentation. -/
def Indentation (line : String) (indentStyle : String) (indentSize : Int) : Result :=
  if indentStyle = "space" then Space line indentSize
  else if indentStyle = "tab" then Tab line
  else .nil


/-- The pattern `"^.*[ \t]+$"` of `TrailingWhitespace`. -/
def trailingWhitespacePattern : Regex :=
  .cat .bot (.cat (.star .dot) (.cat (.plus (.cls false [' ', '\t'])) .eot))

/-- Model of `TrailingWhitespace`: validates if a line has trailing whitespace. -/
def TrailingWhitespace (line : String) (trimTrailingWhitespace : Bool) : Result :=
  if trimTrailingWhitespace then
    match regexp.MatchString trailingWhitespacePattern line with
    | .error e => .panic e
    | .ok matched => if matched then .err "Trailing whitespace" else .nil
  else .nil

/-- The pattern `fmt.Sprintf("%s$", eol)` of `FinalNewline`. The terminator text goes into the
pattern as it is; it is read as ordinary characters, which is how the pattern compiler reads a
text that has none of the characters `\ . + * ? ( ) | [ ] { } ^ $`, such as the terminators
`"\n"`, `"\r"`, `"\r\n"` and the empty text. A resolver that returns a text with one of these
characters is outside of what this definition describes. -/
def finalNewlinePattern (eol : String) : Regex :=
  .cat (regexp.literal eol.data) .eot

/-- Model of `FinalNewline`: validates if a file has a final and correct newline. The resolver
`utils.GetEolChar` is the parameter `GetEolChar`. -/
def FinalNewline (GetEolChar : String → String) (fileContent : String)
    (insertFinalNewline : Bool) (endOfLine : String) : Result :=
  if insertFinalNewline then
    match regexp.MatchString (finalNewlinePattern (GetEolChar endOfLine)) fileContent with
    | .error e => .panic e
    | .ok matched =>
      if !matched then .err "Wrong line endings or new final newline" else .nil
  else .nil

/-- Model of `LineEnding`: validates if a file uses the correct line endings. The resolver
`utils.GetEolChar` is the parameter `GetEolChar`. -/
def LineEnding (GetEolChar : String → String) (fileContent : String) (endOfLine : String) :
    Result :=
  if endOfLine ≠ "" then
    let expectedEolChar := GetEolChar endOfLine
    let expectedEols := (strings.Split fileContent expectedEolChar).length
    let lfEols := (strings.Split fileContent "\n").length
    let crEols := (strings.Split fileContent "\r").length
    let crlfEols := (strings.Split fileContent "\r\n").length
    if endOfLine = "lf" then
      if !(expectedEols == lfEols && crEols == 1 && crlfEols == 1) then
        .err "Not all lines have the correct end of line character"
      else .nil
    else if endOfLine = "cr" then
      if !(expectedEols == crEols && lfEols == 1 && crlfEols == 1) then
        .err "Not all lines have the correct end of line character"
      else .nil
    else if endOfLine = "crlf" then
      if !(expectedEols == crlfEols && lfEols == expectedEols && crEols == expectedEols) then
        .err "Not all lines have the correct end of line character"
      else .nil
    else .nil
  else .nil

/-- The leading run of whitespace of a text, in the words of the spec: its longest beginning
made of space and tab characters only. -/
def leadingRun (t : List Char) : List Char :=
  t.takeWhile (fun c => c == ' ' || c == '\t')

end validators

/-! ## Facts about the pattern matcher -/

namespace regexp

theorem mem_ends_lit (t : List Char) (c : Char) (s r : List Char) :
    r ∈ ends t (.lit c) s ↔ s = c :: r := by
  cases s with
  | nil => simp [ends]
  | cons x xs =>
    by_cases h : x = c
    · simp [ends, h, eq_comm]
    · simp [ends, h]

theorem mem_ends_cls (t : List Char) (negated : Bool) (cs : List Char) (s r : List Char) :
    r ∈ ends t (.cls negated cs) s ↔ ∃ x, s = x :: r ∧ (decide (x ∈ cs) != negated) = true := by
  cases s with
  | nil => simp [ends]
  | cons x xs =>
    by_cases h : (decide (x ∈ cs) != negated) = true
    · simp only [ends, h, if_true, List.mem_singleton, List.cons.injEq]
      constructor
      · rintro rfl
        exact ⟨x, ⟨rfl, rfl⟩, h⟩
      · rintro ⟨y, ⟨rfl, rfl⟩, _⟩
        rfl
    · simp only [ends, h, List.cons.injEq]
      constructor
      · intro h0
        simp at h0
      · rintro ⟨y, ⟨rfl, rfl⟩, hy⟩
        exact absurd hy h

theorem mem_ends_dot (t : List Char) (s r : List Char) :
    r ∈ ends t .dot s ↔ ∃ x, s = x :: r ∧ x ≠ '\n' := by
  cases s with
  | nil => simp [ends]
  | cons x xs =>
    by_cases h : x = '\n'
    · simp [ends, h]
    · simp only [ends, h, if_false, List.mem_singleton, List.cons.injEq]
      constructor
      · rintro rfl
        exact ⟨x, ⟨rfl, rfl⟩, h⟩
      · rintro ⟨y, ⟨rfl, rfl⟩, _⟩
        rfl

theorem mem_ends_bot (t : List Char) (s r : List Char) :
    r ∈ ends t .bot s ↔ r = s ∧ s.length = t.length := by
  by_cases h : s.length = t.length <;> simp [ends, h]

theorem mem_ends_eot (t : List Char) (s r : List Char) :
    r ∈ ends t .eot s ↔ r = s ∧ s = [] := by
  by_cases h : s = [] <;> simp [ends, h]

theorem mem_ends_cat (t : List Char) (a b : Regex) (s r : List Char) :
    r ∈ ends t (.cat a b) s ↔ ∃ m, m ∈ ends t a s ∧ r ∈ ends t b m := by
  simp [ends, List.mem_flatMap]

theorem mem_ends_alt (t : List Char) (a b : Regex) (s r : List Char) :
    r ∈ ends t (.alt a b) s ↔ r ∈ ends t a s ∨ r ∈ ends t b s := by
  simp [ends]

theorem mem_ends_quest (t : List Char) (a : Regex) (s r : List Char) :
    r ∈ ends t (.quest a) s ↔ r ∈ ends t a s ∨ r = s := by
  simp [ends]

/-- The search finds a match iff the pattern matches at some position of the text. -/
theorem search_iff (re : Regex) (t : List Char) :
    search re t = true ↔ ∃ s r, s <:+ t ∧ r ∈ ends t re s := by
  simp only [search, List.any_eq_true, List.mem_tails, Bool.not_eq_true', List.isEmpty_eq_false]
  constructor
  · rintro ⟨s, hs, h⟩
    obtain ⟨r, hr⟩ := List.exists_mem_of_ne_nil _ h
    exact ⟨s, r, hs, hr⟩
  · rintro ⟨s, r, hs, hr⟩
    exact ⟨s, hs, List.ne_nil_of_mem hr⟩

/-- A pattern that starts with `^` matches only at the beginning of the text. -/
theorem search_bot_cat (a : Regex) (t : List Char) :
    search (.cat .bot a) t = true ↔ ∃ r, r ∈ ends t a t := by
  rw [search_iff]
  constructor
  · rintro ⟨s, r, hs, hr⟩
    rw [mem_ends_cat] at hr
    obtain ⟨m, hm, hr⟩ := hr
    rw [mem_ends_bot] at hm
    obtain ⟨rfl, hlen⟩ := hm
    have : m = t := hs.eq_of_length hlen
    subst this
    exact ⟨r, hr⟩
  · rintro ⟨r, hr⟩
    refine ⟨t, r, List.suffix_refl t, ?_⟩
    rw [mem_ends_cat]
    exact ⟨t, (mem_ends_bot t t t).2 ⟨rfl, rfl⟩, hr⟩

/-- Exactly `n` times the literal `c`: the text goes on with `n` characters `c`. -/
theorem mem_repLoop_lit (t : List Char) (c : Char) (n : Nat) (s r : List Char) :
    r ∈ repLoop (ends t (.lit c)) n s ↔ s = List.replicate n c ++ r := by
  induction n generalizing s with
  | zero => simp [repLoop, eq_comm]
  | succ n ih =>
    simp only [repLoop, List.mem_flatMap, mem_ends_lit, ih, List.replicate_succ, List.cons_append]
    constructor
    · rintro ⟨m, rfl, rfl⟩
      rfl
    · intro h
      exact ⟨_, h, rfl⟩

/-- Any number of times a one-character step: the text goes on with characters that pass the
test of the step. -/
theorem mem_starLoop_char (f : List Char → List (List Char)) (P : Char → Prop)
    (hf : ∀ s r, r ∈ f s ↔ ∃ x, s = x :: r ∧ P x) (fuel : Nat) (s r : List Char)
    (hfuel : s.length ≤ fuel) :
    r ∈ starLoop f fuel s ↔ ∃ pre, s = pre ++ r ∧ ∀ x ∈ pre, P x := by
  induction fuel generalizing s with
  | zero =>
    have hs : s = [] := List.length_eq_zero.mp (Nat.le_zero.mp hfuel)
    subst hs
    simp only [starLoop, List.mem_singleton]
    constructor
    · rintro rfl
      exact ⟨[], rfl, by simp⟩
    · rintro ⟨pre, h, _⟩
      have := congrArg List.length h
      simp only [List.length_nil, List.length_append] at this
      exact List.length_eq_zero.mp (by omega)
  | succ fuel ih =>
    simp only [starLoop, List.mem_cons, List.mem_flatMap, List.mem_filter, decide_eq_true_eq]
    constructor
    · rintro (rfl | ⟨m, ⟨hm, hlt⟩, hr⟩)
      · exact ⟨[], rfl, by simp⟩
      · obtain ⟨x, rfl, hx⟩ := (hf s m).1 hm
        obtain ⟨pre, rfl, hpre⟩ := (ih m (by simp at hfuel; omega)).1 hr
        refine ⟨x :: pre, rfl, ?_⟩
        intro y hy
        rcases List.mem_cons.1 hy with rfl | hy
        · exact hx
        · exact hpre y hy
    · rintro ⟨pre, rfl, hpre⟩
      cases pre with
      | nil => exact Or.inl rfl
      | cons x pre =>
        right
        refine ⟨pre ++ r, ⟨(hf _ _).2 ⟨x, rfl, hpre x (List.mem_cons_self _ _)⟩, by simp⟩, ?_⟩
        refine (ih (pre ++ r) (by simp at hfuel ⊢; omega)).2 ⟨pre, rfl, ?_⟩
        intro y hy
        exact hpre y (List.mem_cons_of_mem _ hy)

/-- Any number of times a step that reads `n > 0` characters `c`: the text goes on with a
multiple of `n` characters `c`. -/
theorem mem_starLoop_replicate (f : List Char → List (List Char)) (c : Char) (n : Nat)
    (hn : 0 < n) (hf : ∀ s r, r ∈ f s ↔ s = List.replicate n c ++ r) (fuel : Nat)
    (s r : List Char) (hfuel : s.length ≤ fuel) :
    r ∈ starLoop f fuel s ↔ ∃ k, s = List.replicate (k * n) c ++ r := by
  induction fuel generalizing s with
  | zero =>
    have hs : s = [] := List.length_eq_zero.mp (Nat.le_zero.mp hfuel)
    subst hs
    simp only [starLoop, List.mem_singleton]
    constructor
    · rintro rfl
      exact ⟨0, by simp⟩
    · rintro ⟨k, h⟩
      have := congrArg List.length h
      simp only [List.length_nil, List.length_append] at this
      exact List.length_eq_zero.mp (by omega)
  | succ fuel ih =>
    simp only [starLoop, List.mem_cons, List.mem_flatMap, List.mem_filter, decide_eq_true_eq]
    constructor
    · rintro (rfl | ⟨m, ⟨hm, hlt⟩, hr⟩)
      · exact ⟨0, by simp⟩
      · have hs := (hf s m).1 hm
        obtain ⟨k, hk⟩ := (ih m (by omega)).1 hr
        refine ⟨k + 1, ?_⟩
        rw [hs, hk, Nat.succ_mul, Nat.add_comm, List.replicate_add, List.append_assoc]
    · rintro ⟨k, hk⟩
      cases k with
      | zero => exact Or.inl (by simpa using hk.symm)
      | succ k =>
        right
        have hs : s = List.replicate n c ++ (List.replicate (k * n) c ++ r) := by
          rw [hk, Nat.succ_mul, Nat.add_comm, List.replicate_add, List.append_assoc]
        have hlen : (List.replicate (k * n) c ++ r).length < s.length := by
          rw [hs]
          simp only [List.length_append, List.length_replicate]
          omega
        exact ⟨_, ⟨(hf _ _).2 hs, hlen⟩, (ih _ (by omega)).2 ⟨k, rfl⟩⟩

/-- The literal `c` as a one-character step. -/
theorem mem_ends_lit_step (t : List Char) (c : Char) (s r : List Char) :
    r ∈ ends t (.lit c) s ↔ ∃ x, s = x :: r ∧ x = c := by
  rw [mem_ends_lit]
  constructor
  · rintro rfl
    exact ⟨_, rfl, rfl⟩
  · rintro ⟨y, rfl, rfl⟩
    rfl

/-- Unfolding of `a*` for a one-character pattern `a`. -/
theorem mem_ends_star_char (t : List Char) (a : Regex) (P : Char → Prop)
    (ha : ∀ s r, r ∈ ends t a s ↔ ∃ x, s = x :: r ∧ P x) (s r : List Char) :
    r ∈ ends t (.star a) s ↔ ∃ pre, s = pre ++ r ∧ ∀ x ∈ pre, P x :=
  mem_starLoop_char (ends t a) P ha s.length s r (le_refl _)

/-- Unfolding of `a+` for a one-character pattern `a`. -/
theorem mem_ends_plus_char (t : List Char) (a : Regex) (P : Char → Prop)
    (ha : ∀ s r, r ∈ ends t a s ↔ ∃ x, s = x :: r ∧ P x) (s r : List Char) :
    r ∈ ends t (.plus a) s ↔ ∃ x pre, s = x :: pre ++ r ∧ P x ∧ ∀ y ∈ pre, P y := by
  simp only [ends, List.mem_flatMap]
  constructor
  · rintro ⟨m, hm, hr⟩
    obtain ⟨x, rfl, hx⟩ := (ha s m).1 hm
    obtain ⟨pre, rfl, hpre⟩ := (mem_starLoop_char (ends t a) P ha _ m r (le_refl _)).1 hr
    exact ⟨x, pre, rfl, hx, hpre⟩
  · rintro ⟨x, pre, rfl, hx, hpre⟩
    exact ⟨pre ++ r, (ha _ _).2 ⟨x, rfl, hx⟩,
      (mem_starLoop_char (ends t a) P ha _ _ r (le_refl _)).2 ⟨pre, rfl, hpre⟩⟩

/-- Unfolding of `(c{n})*` for a literal `c` and a count `n > 0`. -/
theorem mem_ends_star_rep_lit (t : List Char) (c : Char) (n : Nat) (hn : 0 < n)
    (s r : List Char) :
    r ∈ ends t (.star (.rep (.lit c) n)) s ↔ ∃ k, s = List.replicate (k * n) c ++ r :=
  mem_starLoop_replicate (ends t (.rep (.lit c) n)) c n hn
    (fun s r => mem_repLoop_lit t c n s r) s.length s r (le_refl _)

end regexp

/-! ## Facts about `Tab` and `Space` -/

namespace validators

/-- The pattern of `Tab` matches a text iff the text is a run of tabs and then a character that
is neither a space nor a tab. -/
theorem search_tabPattern (t : List Char) :
    regexp.search tabPattern t = true ↔
      ∃ k c rest, t = List.replicate k '\t' ++ c :: rest ∧ c ≠ ' ' ∧ c ≠ '\t' := by
  unfold tabPattern
  rw [regexp.search_bot_cat]
  simp only [regexp.mem_ends_cat, regexp.mem_ends_cls,
    regexp.mem_ends_star_char t _ (fun y => y = '\t') (regexp.mem_ends_lit_step t '\t')]
  constructor
  · rintro ⟨r, m, ⟨pre, rfl, hpre⟩, x, hm, hx⟩
    subst hm
    refine ⟨pre.length, x, r, ?_, ?_, ?_⟩
    · rw [← List.eq_replicate_of_mem hpre]
    · intro h
      simp [h] at hx
    · intro h
      simp [h] at hx
  · rintro ⟨k, c, rest, rfl, h1, h2⟩
    exact ⟨rest, c :: rest, ⟨List.replicate k '\t', rfl, fun y hy => List.eq_of_mem_replicate hy⟩,
      c, rfl, by simp [h1, h2]⟩

/-- What `Tab` returns, in terms of the search. -/
theorem Tab_eq (L : String) :
    Tab L = if L.length > 0 ∧ regexp.search tabPattern L.data = false then
      .err "Wrong indentation type(spaces instead of tabs)" else .nil := by
  unfold Tab
  by_cases h : L.length > 0
  · have hok : regexp.repeatSizesOK tabPattern = true := by decide
    cases hs : regexp.search tabPattern L.data <;> simp [h, regexp.MatchString, hok, hs]
  · simp [h]

/-- The pattern of `Space` for the size `N > 0` matches a text iff the text is a multiple of
`N` spaces and then either a character that is neither a space nor a tab, or a space and an
asterisk. -/
theorem search_spacePattern (N : Int) (hN : 0 < N) (t : List Char) :
    regexp.search (spacePattern N) t = true ↔
      ∃ k rest, t = List.replicate (k * N.toNat) ' ' ++ rest ∧
        ((∃ c tl, rest = c :: tl ∧ c ≠ ' ' ∧ c ≠ '\t') ∨ ∃ tl, rest = ' ' :: '*' :: tl) := by
  have hn : 0 < N.toNat := by omega
  unfold spacePattern
  rw [regexp.search_bot_cat]
  simp only [regexp.mem_ends_cat, regexp.mem_ends_alt, regexp.mem_ends_cls,
    regexp.mem_ends_quest, regexp.mem_ends_lit, regexp.mem_ends_star_rep_lit t ' ' _ hn]
  constructor
  · rintro ⟨r, m, ⟨k, rfl⟩, h⟩
    refine ⟨k, m, rfl, ?_⟩
    rcases h with ⟨m1, rfl, m2, rfl, _⟩ | ⟨x, rfl, hx⟩
    · exact Or.inr ⟨m2, rfl⟩
    · refine Or.inl ⟨x, r, rfl, ?_, ?_⟩
      · intro h
        simp [h] at hx
      · intro h
        simp [h] at hx
  · rintro ⟨k, rest, rfl, ⟨c, tl, rfl, h1, h2⟩ | ⟨tl, rfl⟩⟩
    · exact ⟨tl, c :: tl, ⟨k, rfl⟩, Or.inr ⟨c, rfl, by simp [h1, h2]⟩⟩
    · exact ⟨tl, ' ' :: '*' :: tl, ⟨k, rfl⟩, Or.inl ⟨'*' :: tl, rfl, tl, rfl, Or.inr rfl⟩⟩

/-- The pattern of `Space` compiles iff the size is at most 1000. -/
theorem repeatSizesOK_spacePattern (N : Int) :
    regexp.repeatSizesOK (spacePattern N) = decide (N.toNat ≤ 1000) := by
  by_cases h : N.toNat ≤ 1000
  · by_cases h0 : N.toNat = 0
    · simp [spacePattern, regexp.repeatSizesOK, regexp.repeatIsValid, h0]
    · have h1 : ¬ (1000 < N.toNat) := by omega
      simp [spacePattern, regexp.repeatSizesOK, regexp.repeatIsValid, h, h0, h1]
  · simp [spacePattern, regexp.repeatSizesOK, regexp.repeatIsValid, h]

/-- What `Space` returns for a size from 1 to 1000, in terms of the search. -/
theorem Space_eq (L : String) (N : Int) (h0 : 0 < N) (h1 : N ≤ 1000) :
    Space L N = if L.length > 0 ∧ regexp.search (spacePattern N) L.data = false then
      .err ("Wrong amount of left-padding spaces(want multiple of " ++ toString N ++ ")")
      else .nil := by
  unfold Space
  have hok : regexp.repeatSizesOK (spacePattern N) = true := by
    rw [repeatSizesOK_spacePattern]
    exact decide_eq_true (by omega)
  by_cases h : L.length > 0
  · cases hs : regexp.search (spacePattern N) L.data <;>
      simp [h, h0, regexp.MatchString, hok, hs]
  · simp [h]

/-- On a non-empty line `Space` aborts for every size above 1000. -/
theorem Space_panic (L : String) (N : Int) (hL : L.length > 0) (hN : 1000 < N) :
    Space L N = .panic .ErrInvalidRepeatSize := by
  unfold Space
  have h0 : 0 < N := by omega
  have hok : regexp.repeatSizesOK (spacePattern N) = false := by
    rw [repeatSizesOK_spacePattern]
    exact decide_eq_false (by omega)
  simp [hL, h0, regexp.MatchString, hok]

/-- A string is not the empty string iff its length is positive. -/
theorem length_pos_of_ne_empty (L : String) : L ≠ "" ↔ L.length > 0 := by
  cases L with
  | mk cs =>
    cases cs with
    | nil => simp [String.length]
    | cons c cs => simp [String.length, String.ext_iff]

end validators

/-! ## Facts about `TrailingWhitespace` -/

namespace validators

/-- A list is empty or has a last element. -/
theorem eq_nil_or_snoc (l : List Char) : l = [] ∨ ∃ init last, l = init ++ [last] := by
  rcases List.eq_nil_or_concat l with h | ⟨init, last, h⟩
  · exact Or.inl h
  · exact Or.inr ⟨init, last, by rw [h, List.concat_eq_append]⟩

/-- The class `[ \t]` as a one-character step. -/
theorem mem_ends_blank (t s r : List Char) :
    r ∈ regexp.ends t (.cls false [' ', '\t']) s ↔ ∃ x, s = x :: r ∧ (x = ' ' ∨ x = '\t') := by
  rw [regexp.mem_ends_cls]
  constructor
  · rintro ⟨x, rfl, hx⟩
    exact ⟨x, rfl, by simpa using hx⟩
  · rintro ⟨x, rfl, hx⟩
    exact ⟨x, rfl, by simpa using hx⟩

/-- The pattern of `TrailingWhitespace` matches a text iff the text has no line feed and ends
with a space or a tab. -/
theorem search_trailingWhitespacePattern (t : List Char) :
    regexp.search trailingWhitespacePattern t = true ↔
      '\n' ∉ t ∧ ∃ init last, t = init ++ [last] ∧ (last = ' ' ∨ last = '\t') := by
  unfold trailingWhitespacePattern
  rw [regexp.search_bot_cat]
  simp only [regexp.mem_ends_cat, regexp.mem_ends_eot,
    regexp.mem_ends_star_char t _ (fun y => y ≠ '\n') (regexp.mem_ends_dot t),
    regexp.mem_ends_plus_char t _ (fun y => y = ' ' ∨ y = '\t') (mem_ends_blank t)]
  constructor
  · rintro ⟨r, m, ⟨pre, rfl, hpre⟩, m2, ⟨x, mid, rfl, hx, hmid⟩, rfl, rfl⟩
    have hblank : ∀ y ∈ x :: mid, y = ' ' ∨ y = '\t' := by
      intro y hy
      rcases List.mem_cons.1 hy with rfl | hy
      · exact hx
      · exact hmid y hy
    constructor
    · intro hmem
      simp only [List.append_nil, List.mem_append] at hmem
      rcases hmem with h | h
      · exact hpre _ h rfl
      · rcases hblank _ h with h | h <;> exact absurd h (by decide)
    · rcases eq_nil_or_snoc (x :: mid) with h | ⟨init, last, h⟩
      · exact absurd h (List.cons_ne_nil _ _)
      · refine ⟨pre ++ init, last, ?_, ?_⟩
        · simp only [List.append_nil, List.append_assoc]
          rw [h]
        · apply hblank
          rw [h]
          simp
  · rintro ⟨hnl, init, last, rfl, hlast⟩
    refine ⟨[], [last], ⟨init, rfl, ?_⟩, [], ⟨last, [], rfl, hlast, by simp⟩, rfl, rfl⟩
    intro y hy h
    apply hnl
    rw [← h]
    exact List.mem_append_left _ hy

/-- What `TrailingWhitespace` returns with the flag set, in terms of the search. -/
theorem TrailingWhitespace_eq (L : String) :
    TrailingWhitespace L true =
      if regexp.search trailingWhitespacePattern L.data = true then .err "Trailing whitespace"
      else .nil := by
  unfold TrailingWhitespace
  have hok : regexp.repeatSizesOK trailingWhitespacePattern = true := by decide
  cases hs : regexp.search trailingWhitespacePattern L.data <;>
    simp [regexp.MatchString, hok, hs]

end validators

/-! ## Facts about `FinalNewline` -/

namespace validators

/-- A pattern of ordinary characters matches exactly where the text goes on with them. -/
theorem mem_ends_literal (t e s r : List Char) :
    r ∈ regexp.ends t (regexp.literal e) s ↔ s = e ++ r := by
  induction e generalizing s with
  | nil => simp [regexp.literal, regexp.ends, eq_comm]
  | cons c e ih =>
    simp only [regexp.literal, regexp.mem_ends_cat, regexp.mem_ends_lit, ih, List.cons_append]
    constructor
    · rintro ⟨m, rfl, rfl⟩
      rfl
    · intro h
      exact ⟨_, h, rfl⟩

/-- A pattern of ordinary characters has no counted repetition. -/
theorem repeatSizesOK_literal (e : List Char) :
    regexp.repeatSizesOK (regexp.literal e) = true := by
  induction e with
  | nil => rfl
  | cons c e ih => simp [regexp.literal, regexp.repeatSizesOK, ih]

/-- The pattern of `FinalNewline` matches a text iff the text ends with the terminator. -/
theorem search_finalNewlinePattern (eol : String) (t : List Char) :
    regexp.search (finalNewlinePattern eol) t = true ↔ eol.data <:+ t := by
  unfold finalNewlinePattern
  rw [regexp.search_iff]
  simp only [regexp.mem_ends_cat, regexp.mem_ends_eot, mem_ends_literal]
  constructor
  · rintro ⟨s, r, hs, m, rfl, rfl, rfl⟩
    simpa using hs
  · intro h
    exact ⟨eol.data, [], h, [], by simp, rfl, rfl⟩

/-- What `FinalNewline` returns with the flag set, in terms of the search. -/
theorem FinalNewline_eq (g : String → String) (C K : String) :
    FinalNewline g C true K =
      if regexp.search (finalNewlinePattern (g K)) C.data = true then .nil
      else .err "Wrong line endings or new final newline" := by
  unfold FinalNewline
  have hok : regexp.repeatSizesOK (finalNewlinePattern (g K)) = true := by
    simp [finalNewlinePattern, regexp.repeatSizesOK, repeatSizesOK_literal]
  cases hs : regexp.search (finalNewlinePattern (g K)) C.data <;>
    simp [regexp.MatchString, hok, hs]

/-- With the flag set, `FinalNewline` conforms iff the content ends with the terminator. -/
theorem FinalNewline_nil_iff (g : String → String) (C K : String) :
    FinalNewline g C true K = .nil ↔ (g K).data <:+ C.data := by
  rw [FinalNewline_eq, ← search_finalNewlinePattern]
  cases hs : regexp.search (finalNewlinePattern (g K)) C.data <;> simp

/-- With the flag set, `FinalNewline` returns its violation iff the content does not end with
the terminator. -/
theorem FinalNewline_err_iff (g : String → String) (C K : String) :
    FinalNewline g C true K = .err "Wrong line endings or new final newline" ↔
      ¬ (g K).data <:+ C.data := by
  rw [FinalNewline_eq, ← search_finalNewlinePattern]
  cases hs : regexp.search (finalNewlinePattern (g K)) C.data <;> simp

end validators

/-! ## Facts about `strings.Split` and `LineEnding` -/

namespace strings

/-- The number of pieces does not depend on the piece being read. -/
theorem length_splitScan_cur (sep : List Char) (s : List Char) (k : Nat) (cur cur2 : List Char) :
    (splitScan sep k cur s).length = (splitScan sep k cur2 s).length := by
  induction s generalizing k cur cur2 with
  | nil => cases k <;> simp [splitScan]
  | cons c s ih =>
    cases k with
    | zero =>
      by_cases h : sep.isPrefixOf (c :: s) = true
      · simp [splitScan, h]
      · simp only [splitScan, h]
        exact ih 0 _ _
    | succ k =>
      simp only [splitScan]
      exact ih k _ _

/-- Splitting by a single character gives one piece more than the character occurs. -/
theorem length_splitScan_single (c : Char) (s cur : List Char) :
    (splitScan [c] 0 cur s).length = s.count c + 1 := by
  induction s generalizing cur with
  | nil => simp [splitScan]
  | cons x s ih =>
    by_cases h : c = x
    · subst h
      simp [splitScan, List.isPrefixOf, ih]
    · have h2 : ¬ x = c := fun e => h e.symm
      simp [splitScan, List.isPrefixOf, h, h2, ih, List.count_cons]

/-- One step of the scan at a character that is not being passed over. -/
theorem splitScan_zero_cons (sep cur : List Char) (c : Char) (s : List Char) :
    splitScan sep 0 cur (c :: s) =
      if sep.isPrefixOf (c :: s) then cur.reverse :: splitScan sep (sep.length - 1) [] s
      else splitScan sep 0 (c :: cur) s := rfl

/-- Splitting by `"\r\n"` gives one piece more than there are carriage returns followed by a
line feed; stated for the texts of a bounded length. -/
theorem length_splitScan_crlf_aux (n : Nat) :
    ∀ s : List Char, s.length ≤ n →
      ∀ cur, (splitScan ['\r', '\n'] 0 cur s).length = crlfCount s + 1 := by
  induction n with
  | zero =>
    intro s hs cur
    have : s = [] := List.length_eq_zero.mp (Nat.le_zero.mp hs)
    subst this
    simp [splitScan, crlfCount]
  | succ n ih =>
    intro s hs cur
    cases s with
    | nil => simp [splitScan, crlfCount]
    | cons c s =>
      have hs1 : s.length ≤ n := by simpa using hs
      by_cases hc : c = '\r'
      · subst hc
        cases s with
        | nil => simp [splitScan, crlfCount, List.isPrefixOf]
        | cons d s =>
          by_cases hd : d = '\n'
          · subst hd
            have := ih s (by simp at hs1; omega) []
            simp [splitScan, crlfCount, List.isPrefixOf, this]
            omega
          · have h2 : ¬ '\n' = d := fun e => hd e.symm
            have := ih (d :: s) hs1 ('\r' :: cur)
            have hp : List.isPrefixOf ['\r', '\n'] ('\r' :: d :: s) = false := by
              simp [List.isPrefixOf, h2]
            rw [splitScan_zero_cons, hp]
            simp only [Bool.false_eq_true, if_false]
            rw [this]
            simp [crlfCount, hd]
      · have h2 : ¬ '\r' = c := fun e => hc e.symm
        have := ih s hs1 (c :: cur)
        simp [splitScan, List.isPrefixOf, h2, this]
        simp [crlfCount, hc]

/-- Splitting by `"\r\n"` gives one piece more than there are carriage returns followed by a
line feed. -/
theorem length_splitScan_crlf (s cur : List Char) :
    (splitScan ['\r', '\n'] 0 cur s).length = crlfCount s + 1 :=
  length_splitScan_crlf_aux s.length s (le_refl _) cur

/-- Number of pieces of a split by `"\n"`. -/
theorem length_Split_lf (C : String) : (Split C "\n").length = C.data.count '\n' + 1 := by
  have h : ("\n" : String).data = ['\n'] := rfl
  simp [Split, h, length_splitScan_single]

/-- Number of pieces of a split by `"\r"`. -/
theorem length_Split_cr (C : String) : (Split C "\r").length = C.data.count '\r' + 1 := by
  have h : ("\r" : String).data = ['\r'] := rfl
  simp [Split, h, length_splitScan_single]

/-- Number of pieces of a split by `"\r\n"`. -/
theorem length_Split_crlf (C : String) : (Split C "\r\n").length = crlfCount C.data + 1 := by
  have h : ("\r\n" : String).data = ['\r', '\n'] := rfl
  simp [Split, h, length_splitScan_crlf]

/-- Every counted pair has its line feed: a character in front does not matter. -/
theorem crlfCount_cons_le_count_lf (p : Char) (s : List Char) :
    crlfCount (p :: s) ≤ s.count '\n' := by
  induction s generalizing p with
  | nil => simp [crlfCount]
  | cons c s ih =>
    have h := ih c
    by_cases hc : c = '\n'
    · subst hc
      by_cases hp : p = '\r'
      · simp [crlfCount, hp] at h ⊢
        omega
      · simp [crlfCount, hp] at h ⊢
        omega
    · have hc2 : ¬ '\n' = c := fun e => hc e.symm
      simp only [crlfCount, List.head?_cons, Option.some.injEq, hc, and_false, if_false,
        Nat.zero_add] at h ⊢
      rw [List.count_cons_of_ne hc2]
      simpa [crlfCount] using h

/-- Every counted pair has its carriage return. -/
theorem crlfCount_le_count_cr (s : List Char) : crlfCount s ≤ s.count '\r' := by
  induction s with
  | nil => simp [crlfCount]
  | cons c s ih =>
    by_cases hc : c = '\r'
    · subst hc
      simp only [crlfCount, List.count_cons_self]
      split <;> omega
    · simp only [crlfCount, hc, false_and, if_false, Nat.zero_add]
      rw [List.count_cons_of_ne (fun e => hc e.symm)]
      exact ih

/-- The counted pairs are all the carriage returns iff each carriage return is immediately
followed by a line feed. -/
theorem crlfCount_eq_count_cr_iff (s : List Char) :
    crlfCount s = s.count '\r' ↔ ∀ i, s[i]? = some '\r' → s[i + 1]? = some '\n' := by
  induction s with
  | nil => simp [crlfCount]
  | cons c s ih =>
    have hle := crlfCount_le_count_cr s
    have hsplit : (∀ i, (c :: s)[i]? = some '\r' → (c :: s)[i + 1]? = some '\n') ↔
        (c = '\r' → s.head? = some '\n') ∧ ∀ i, s[i]? = some '\r' → s[i + 1]? = some '\n' := by
      constructor
      · intro h
        refine ⟨fun hc => ?_, fun i hi => ?_⟩
        · have := h 0 (by simp [hc])
          simpa [List.head?_eq_getElem?] using this
        · have := h (i + 1) (by simpa using hi)
          simpa using this
      · rintro ⟨h0, h⟩ i hi
        cases i with
        | zero =>
          have := h0 (by simpa using hi)
          simpa [List.head?_eq_getElem?] using this
        | succ i =>
          have := h i (by simpa using hi)
          simpa using this
    rw [hsplit, ← ih]
    by_cases hc : c = '\r'
    · subst hc
      simp only [crlfCount, List.count_cons_self, true_and, forall_const]
      by_cases hh : s.head? = some '\n'
      · simp only [hh, if_true, true_and]
        constructor <;> intro h <;> omega
      · simp only [hh, if_false, false_and]
        constructor
        · intro h
          omega
        · intro h
          exact h.elim
    · simp only [crlfCount, hc, false_and, if_false, Nat.zero_add, false_implies, true_and]
      rw [List.count_cons_of_ne (fun e => hc e.symm)]

/-- The counted pairs, with a character `p` in front of the text, are all the line feeds iff
each line feed is immediately preceded by a carriage return. -/
theorem crlfCount_cons_eq_count_lf_iff (p : Char) (s : List Char) :
    crlfCount (p :: s) = s.count '\n' ↔
      ∀ i, s[i]? = some '\n' → (i = 0 ∧ p = '\r') ∨ ∃ j, i = j + 1 ∧ s[j]? = some '\r' := by
  induction s generalizing p with
  | nil => simp [crlfCount]
  | cons c s ih =>
    have hle := crlfCount_cons_le_count_lf c s
    have hsplit : (∀ i, (c :: s)[i]? = some '\n' →
          (i = 0 ∧ p = '\r') ∨ ∃ j, i = j + 1 ∧ (c :: s)[j]? = some '\r') ↔
        (c = '\n' → p = '\r') ∧
          ∀ i, s[i]? = some '\n' → (i = 0 ∧ c = '\r') ∨ ∃ j, i = j + 1 ∧ s[j]? = some '\r' := by
      constructor
      · intro h
        refine ⟨fun hc => ?_, fun i hi => ?_⟩
        · rcases h 0 (by simp [hc]) with ⟨_, hp⟩ | ⟨j, hj, _⟩
          · exact hp
          · omega
        · rcases h (i + 1) (by simpa using hi) with ⟨h0, _⟩ | ⟨j, hj, hjr⟩
          · omega
          · have hji : j = i := by omega
            subst hji
            cases j with
            | zero => exact Or.inl ⟨rfl, by simpa using hjr⟩
            | succ j => exact Or.inr ⟨j, rfl, by simpa using hjr⟩
      · rintro ⟨h0, h⟩ i hi
        cases i with
        | zero => exact Or.inl ⟨rfl, h0 (by simpa using hi)⟩
        | succ i =>
          right
          refine ⟨i, rfl, ?_⟩
          rcases h i (by simpa using hi) with ⟨hi0, hc⟩ | ⟨j, hj, hjr⟩
          · subst hi0
            simp [hc]
          · subst hj
            simpa using hjr
    rw [hsplit, ← ih c]
    have hcount : crlfCount (p :: c :: s) =
        (if p = '\r' ∧ c = '\n' then 1 else 0) + crlfCount (c :: s) := by
      simp [crlfCount]
    rw [hcount]
    by_cases hc : c = '\n'
    · subst hc
      rw [List.count_cons_self]
      by_cases hp : p = '\r'
      · simp only [hp, true_and, if_true, forall_const]
        constructor <;> intro h <;> omega
      · simp only [hp, false_and, if_false, forall_const]
        constructor
        · intro h
          omega
        · intro h
          exact h.elim
    · rw [List.count_cons_of_ne (fun e => hc e.symm)]
      simp only [hc, and_false, if_false, Nat.zero_add, false_implies, true_and]

/-- The counted pairs are all the line feeds iff each line feed is immediately preceded by a
carriage return. -/
theorem crlfCount_eq_count_lf_iff (s : List Char) :
    crlfCount s = s.count '\n' ↔
      ∀ i, s[i]? = some '\n' → ∃ j, i = j + 1 ∧ s[j]? = some '\r' := by
  have h := crlfCount_cons_eq_count_lf_iff 'x' s
  have hx : crlfCount ('x' :: s) = crlfCount s := by
    have : ¬ 'x' = '\r' := by decide
    simp [crlfCount, this]
  rw [hx] at h
  rw [h]
  have hne : ¬ 'x' = '\r' := by decide
  constructor
  · intro h2 i hi
    rcases h2 i hi with ⟨_, hp⟩ | hj
    · exact absurd hp hne
    · exact hj
  · intro h2 i hi
    exact Or.inr (h2 i hi)

/-- There is no counted pair without a carriage return. -/
theorem crlfCount_eq_zero_of_no_cr (s : List Char) (h : '\r' ∉ s) : crlfCount s = 0 := by
  have := crlfCount_le_count_cr s
  rw [List.count_eq_zero_of_not_mem h] at this
  omega

/-- There is no counted pair without a line feed. -/
theorem crlfCount_eq_zero_of_no_lf (s : List Char) (h : '\n' ∉ s) : crlfCount s = 0 := by
  cases s with
  | nil => rfl
  | cons c s =>
    have := crlfCount_cons_le_count_lf c s
    rw [List.count_eq_zero_of_not_mem (fun hm => h (List.mem_cons_of_mem _ hm))] at this
    omega

end strings

namespace validators

/-- What `LineEnding` returns for `"lf"` when the resolver gives `"\n"` for it. -/
theorem LineEnding_lf_eq (g : String → String) (hlf : g "lf" = "\n") (C : String) :
    LineEnding g C "lf" =
      if C.data.count '\r' = 0 ∧ strings.crlfCount C.data = 0 then .nil
      else .err "Not all lines have the correct end of line character" := by
  have h1 : ("lf" : String) ≠ "" := by decide
  simp only [LineEnding, h1, ne_eq, not_false_eq_true, if_true, hlf, strings.length_Split_lf,
    strings.length_Split_cr, strings.length_Split_crlf]
  by_cases h : C.data.count '\r' = 0 ∧ strings.crlfCount C.data = 0
  · simp [h]
  · rw [if_neg h]
    simp only [not_and] at h
    by_cases hc : C.data.count '\r' = 0
    · simp [hc, h hc]
    · simp [hc]

/-- What `LineEnding` returns for `"cr"` when the resolver gives `"\r"` for it. -/
theorem LineEnding_cr_eq (g : String → String) (hcr : g "cr" = "\r") (C : String) :
    LineEnding g C "cr" =
      if C.data.count '\n' = 0 ∧ strings.crlfCount C.data = 0 then .nil
      else .err "Not all lines have the correct end of line character" := by
  have h1 : ("cr" : String) ≠ "" := by decide
  have h2 : ("cr" : String) ≠ "lf" := by decide
  simp only [LineEnding, h1, h2, ne_eq, not_false_eq_true, if_true, if_false, hcr,
    strings.length_Split_lf, strings.length_Split_cr, strings.length_Split_crlf]
  by_cases h : C.data.count '\n' = 0 ∧ strings.crlfCount C.data = 0
  · simp [h]
  · rw [if_neg h]
    simp only [not_and] at h
    by_cases hc : C.data.count '\n' = 0
    · simp [hc, h hc]
    · simp [hc]

/-- What `LineEnding` returns for `"crlf"` when the resolver gives `"\r\n"` for it. -/
theorem LineEnding_crlf_eq (g : String → String) (hcrlf : g "crlf" = "\r\n") (C : String) :
    LineEnding g C "crlf" =
      if strings.crlfCount C.data = C.data.count '\n' ∧
          strings.crlfCount C.data = C.data.count '\r' then .nil
      else .err "Not all lines have the correct end of line character" := by
  have h1 : ("crlf" : String) ≠ "" := by decide
  have h2 : ("crlf" : String) ≠ "lf" := by decide
  have h3 : ("crlf" : String) ≠ "cr" := by decide
  simp only [LineEnding, h1, h2, h3, ne_eq, not_false_eq_true, if_true, if_false, hcrlf,
    strings.length_Split_lf, strings.length_Split_cr, strings.length_Split_crlf]
  by_cases h : strings.crlfCount C.data = C.data.count '\n' ∧
      strings.crlfCount C.data = C.data.count '\r'
  · simp [h.1.symm, h.2.symm]
  · rw [if_neg h]
    simp only [not_and] at h
    by_cases hc : strings.crlfCount C.data = C.data.count '\n'
    · have h4 : ¬ C.data.count '\r' = strings.crlfCount C.data := fun e => h hc e.symm
      simp [h4]
    · have h4 : ¬ C.data.count '\n' = strings.crlfCount C.data := fun e => hc e.symm
      simp [h4]

/-- With `"\n"` for `"lf"`, `LineEnding` conforms for `"lf"` iff there is no carriage return. -/
theorem LineEnding_lf_nil_iff (g : String → String) (hlf : g "lf" = "\n") (C : String) :
    LineEnding g C "lf" = .nil ↔ '\r' ∉ C.data := by
  rw [LineEnding_lf_eq g hlf C]
  by_cases h : '\r' ∈ C.data
  · have hc : ¬ C.data.count '\r' = 0 := by
      rw [List.count_eq_zero]
      exact fun hn => hn h
    simp [hc, h]
  · have hc : C.data.count '\r' = 0 := List.count_eq_zero_of_not_mem h
    simp [hc, h, strings.crlfCount_eq_zero_of_no_cr C.data h]

/-- With `"\r"` for `"cr"`, `LineEnding` conforms for `"cr"` iff there is no line feed. -/
theorem LineEnding_cr_nil_iff (g : String → String) (hcr : g "cr" = "\r") (C : String) :
    LineEnding g C "cr" = .nil ↔ '\n' ∉ C.data := by
  rw [LineEnding_cr_eq g hcr C]
  by_cases h : '\n' ∈ C.data
  · have hc : ¬ C.data.count '\n' = 0 := by
      rw [List.count_eq_zero]
      exact fun hn => hn h
    simp [hc, h]
  · have hc : C.data.count '\n' = 0 := List.count_eq_zero_of_not_mem h
    simp [hc, h, strings.crlfCount_eq_zero_of_no_lf C.data h]

/-- With `"\r\n"` for `"crlf"`, `LineEnding` conforms for `"crlf"` iff no line feed and no
carriage return stands alone. -/
theorem LineEnding_crlf_nil_iff (g : String → String) (hcrlf : g "crlf" = "\r\n")
    (C : String) :
    LineEnding g C "crlf" = .nil ↔
      (∀ i, C.data[i]? = some '\r' → C.data[i + 1]? = some '\n') ∧
      (∀ i, C.data[i]? = some '\n' → ∃ j, i = j + 1 ∧ C.data[j]? = some '\r') := by
  rw [LineEnding_crlf_eq g hcrlf C, ← strings.crlfCount_eq_count_cr_iff,
    ← strings.crlfCount_eq_count_lf_iff]
  by_cases h : strings.crlfCount C.data = C.data.count '\n' ∧
      strings.crlfCount C.data = C.data.count '\r'
  · simp [h.1.symm, h.2.symm]
  · rw [if_neg h]
    constructor
    · intro h0
      exact Result.noConfusion h0
    · intro h0
      exact absurd ⟨h0.2, h0.1⟩ h

end validators

/-! ## Facts about the leading run of whitespace -/

namespace validators

/-- The leading run is made of spaces and tabs, and it is either the whole text or followed by
a character that is neither. -/
theorem leadingRun_spec (t : List Char) :
    (∀ x ∈ leadingRun t, x = ' ' ∨ x = '\t') ∧
    (t = leadingRun t ∨ ∃ c tl, t = leadingRun t ++ c :: tl ∧ c ≠ ' ' ∧ c ≠ '\t') := by
  induction t with
  | nil => simp [leadingRun]
  | cons a t ih =>
    by_cases ha : a = ' ' ∨ a = '\t'
    · have hrun : leadingRun (a :: t) = a :: leadingRun t := by
        rcases ha with rfl | rfl <;> simp [leadingRun]
      rw [hrun]
      constructor
      · intro x hx
        rcases List.mem_cons.1 hx with rfl | hx
        · exact ha
        · exact ih.1 x hx
      · rcases ih.2 with h | ⟨c, tl, h, hc⟩
        · left
          rw [← h]
        · right
          refine ⟨c, tl, ?_, hc⟩
          rw [List.cons_append, ← h]
    · have h1 : a ≠ ' ' := fun h => ha (Or.inl h)
      have h2 : a ≠ '\t' := fun h => ha (Or.inr h)
      have hrun : leadingRun (a :: t) = [] := by
        simp [leadingRun, h1, h2]
      rw [hrun]
      exact ⟨by simp, Or.inr ⟨a, t, rfl, h1, h2⟩⟩

/-- The leading run of a text that is a block of spaces and tabs and then another character. -/
theorem leadingRun_append_cons (pre : List Char) (c : Char) (tl : List Char)
    (hpre : ∀ x ∈ pre, x = ' ' ∨ x = '\t') (h1 : c ≠ ' ') (h2 : c ≠ '\t') :
    leadingRun (pre ++ c :: tl) = pre := by
  induction pre with
  | nil => simp [leadingRun, h1, h2]
  | cons a pre ih =>
    have ha := hpre a (List.mem_cons_self _ _)
    have hrun : leadingRun (a :: (pre ++ c :: tl)) = a :: leadingRun (pre ++ c :: tl) := by
      rcases ha with rfl | rfl <;> simp [leadingRun]
    rw [List.cons_append, hrun, ih (fun x hx => hpre x (List.mem_cons_of_mem _ hx))]

/-- `Space` conforms on the empty line. -/
theorem Space_empty (N : Int) : Space "" N = .nil := by
  simp [Space]

/-- `Space` conforms when the size is not positive. -/
theorem Space_nonpos (L : String) (N : Int) (hN : N ≤ 0) : Space L N = .nil := by
  have h : ¬ N > 0 := by omega
  simp [Space, h]

/-- `Tab` conforms on the empty line. -/
theorem Tab_empty : Tab "" = .nil := by
  simp [Tab]

/-- On a non-empty line and for a size from 1 to 1000, `Space` conforms iff its pattern
matches. -/
theorem Space_nil_iff (L : String) (N : Int) (hL : L ≠ "") (h0 : 0 < N) (h1 : N ≤ 1000) :
    Space L N = .nil ↔
      ∃ k rest, L.data = List.replicate (k * N.toNat) ' ' ++ rest ∧
        ((∃ c tl, rest = c :: tl ∧ c ≠ ' ' ∧ c ≠ '\t') ∨ ∃ tl, rest = ' ' :: '*' :: tl) := by
  have hlen : L.length > 0 := (length_pos_of_ne_empty L).1 hL
  rw [Space_eq L N h0 h1, ← search_spacePattern N h0 L.data]
  cases hs : regexp.search (spacePattern N) L.data <;> simp [hlen]

/-- On a non-empty line and for a size from 1 to 1000, `Space` returns its violation whenever
it does not conform. -/
theorem Space_err_of_ne_nil (L : String) (N : Int) (h0 : 0 < N) (h1 : N ≤ 1000)
    (h : Space L N ≠ .nil) :
    Space L N =
      .err ("Wrong amount of left-padding spaces(want multiple of " ++ toString N ++ ")") := by
  rw [Space_eq L N h0 h1] at h ⊢
  split
  · rfl
  · rename_i hc
    rw [if_neg hc] at h
    exact absurd rfl h

/-- On a non-empty line, `Tab` conforms iff its pattern matches. -/
theorem Tab_nil_iff (L : String) (hL : L ≠ "") :
    Tab L = .nil ↔
      ∃ k c rest, L.data = List.replicate k '\t' ++ c :: rest ∧ c ≠ ' ' ∧ c ≠ '\t' := by
  have hlen : L.length > 0 := (length_pos_of_ne_empty L).1 hL
  rw [Tab_eq L, ← search_tabPattern L.data]
  cases hs : regexp.search tabPattern L.data <;> simp [hlen]

/-- `Tab` returns its violation whenever it does not conform. -/
theorem Tab_err_of_ne_nil (L : String) (h : Tab L ≠ .nil) :
    Tab L = .err "Wrong indentation type(spaces instead of tabs)" := by
  rw [Tab_eq L] at h ⊢
  split
  · rfl
  · rename_i hc
    rw [if_neg hc] at h
    exact absurd rfl h

end validators

/-! ## Facts that relate the checks to one another -/

namespace validators

/-- A non-empty line on which both `Space` (size from 1 to 1000) and `Tab` conform starts with a
character that is neither a space nor a tab. -/
theorem first_char_of_Space_Tab (L : String) (N : Int) (hL : L ≠ "") (h0 : 0 < N)
    (h1 : N ≤ 1000) (hS : Space L N = .nil) (hT : Tab L = .nil) :
    ∃ c tl, L.data = c :: tl ∧ c ≠ ' ' ∧ c ≠ '\t' := by
  obtain ⟨j, c, rest, hT2, hc1, hc2⟩ := (Tab_nil_iff L hL).1 hT
  cases j with
  | zero => exact ⟨c, rest, by simpa using hT2, hc1, hc2⟩
  | succ j =>
    exfalso
    obtain ⟨k, r, hS2, hr⟩ := (Space_nil_iff L N hL h0 h1).1 hS
    rw [hT2, List.replicate_succ, List.cons_append] at hS2
    cases hk : k * N.toNat with
    | zero =>
      rw [hk, List.replicate_zero, List.nil_append] at hS2
      rcases hr with ⟨d, tl, hd, hd1, hd2⟩ | ⟨tl, hd⟩
      · rw [hd] at hS2
        exact hd2 (List.cons.inj hS2).1.symm
      · rw [hd] at hS2
        exact absurd (List.cons.inj hS2).1 (by decide)
    | succ m =>
      rw [hk, List.replicate_succ, List.cons_append] at hS2
      exact absurd (List.cons.inj hS2).1 (by decide)

/-- The size `M` divides the size `N`, as natural numbers. -/
theorem toNat_dvd_toNat (M N : Int) (hM : 0 < M) (hN : 0 < N) (hdvd : M ∣ N) :
    M.toNat ∣ N.toNat := by
  have e1 : ((M.toNat : Nat) : Int) = M := Int.toNat_of_nonneg (le_of_lt hM)
  have e2 : ((N.toNat : Nat) : Int) = N := Int.toNat_of_nonneg (le_of_lt hN)
  rw [← e1, ← e2] at hdvd
  exact Int.natCast_dvd_natCast.1 hdvd

/-- A text without carriage return and without line feed has no bare terminator. -/
theorem no_bare_of_no_terminator (t : List Char) (h1 : '\r' ∉ t) (h2 : '\n' ∉ t) :
    (∀ i, t[i]? = some '\r' → t[i + 1]? = some '\n') ∧
    (∀ i, t[i]? = some '\n' → ∃ j, i = j + 1 ∧ t[j]? = some '\r') :=
  ⟨fun i hi => absurd (List.mem_iff_getElem?.2 ⟨i, hi⟩) h1,
    fun i hi => absurd (List.mem_iff_getElem?.2 ⟨i, hi⟩) h2⟩

end validators

/-! ## The claims -/

open validators

/-- C1 at its failing input: the line `"x"` starts with zero spaces followed by a character that
is neither space nor tab, so by C1 `Space("x", 1001)` has to conform; the code aborts instead,
because the pattern compiler rejects a counted repetition above 1000. -/
theorem C1_Space_aborts_at_1001 :
    ¬ (Space "x" 1001 = Result.nil ↔
        ∃ k rest, "x".data = List.replicate (k * (1001 : Int).toNat) ' ' ++ rest ∧
          ((∃ c tl, rest = c :: tl ∧ c ≠ ' ' ∧ c ≠ '\t') ∨ ∃ tl, rest = ' ' :: '*' :: tl)) ∧
    Space "x" 1001 = Result.panic regexp.Error.ErrInvalidRepeatSize := by
  have hp : Space "x" 1001 = Result.panic regexp.Error.ErrInvalidRepeatSize := by decide
  refine ⟨?_, hp⟩
  intro h
  have hnil : Space "x" 1001 = Result.nil :=
    h.2 ⟨0, ['x'], by simp, Or.inl ⟨'x', [], rfl, by decide, by decide⟩⟩
  rw [hp] at hnil
  exact Result.noConfusion hnil

/-- C1 on the sizes for which the pattern compiles: for every non-empty line `L` and every
indent size `N` from 1 to 1000, `Space(L, N)` conforms iff for some `k` the line begins with `k * N` spaces that are followed
either by a character that is neither space nor tab, or by a space and then an asterisk;
otherwise it returns the wrong-left-padding violation. -/
theorem C1_Space_conforms_iff (L : String) (N : Int) (hL : L ≠ "") (h0 : 0 < N)
    (h1 : N ≤ 1000) :
    (Space L N = Result.nil ↔
      ∃ k rest, L.data = List.replicate (k * N.toNat) ' ' ++ rest ∧
        ((∃ c tl, rest = c :: tl ∧ c ≠ ' ' ∧ c ≠ '\t') ∨ ∃ tl, rest = ' ' :: '*' :: tl)) ∧
    (Space L N ≠ Result.nil →
      Space L N = Result.err
        ("Wrong amount of left-padding spaces(want multiple of " ++ toString N ++ ")")) := by
  have hlen : L.length > 0 := (length_pos_of_ne_empty L).1 hL
  rw [Space_eq L N h0 h1, ← search_spacePattern N h0 L.data]
  cases hs : regexp.search (spacePattern N) L.data <;> simp [hlen]

/-- C1 at the line of four spaces and `x`, size 4. -/
theorem C1_Space_conforms_iff_witness :
    ("    x" ≠ "" ∧ (0 : Int) < 4 ∧ (4 : Int) ≤ 1000) ∧ Space "    x" 4 = Result.nil :=
  ⟨by decide,
    (C1_Space_conforms_iff "    x" 4 (by decide) (by decide) (by decide)).1.2
      ⟨1, ['x'], by decide, Or.inl ⟨'x', [], rfl, by decide, by decide⟩⟩⟩

/-- C2: for every non-empty line `L`, `Tab(L)` conforms iff `L` is zero or more tabs followed by
a character that is neither space nor tab, the rest of the line being arbitrary; otherwise it
returns the wrong-indentation-type violation. -/
theorem C2_Tab_conforms_iff (L : String) (hL : L ≠ "") :
    (Tab L = Result.nil ↔
      ∃ k c rest, L.data = List.replicate k '\t' ++ c :: rest ∧ c ≠ ' ' ∧ c ≠ '\t') ∧
    (Tab L ≠ Result.nil →
      Tab L = Result.err "Wrong indentation type(spaces instead of tabs)") := by
  have hlen : L.length > 0 := (length_pos_of_ne_empty L).1 hL
  rw [Tab_eq L, ← search_tabPattern L.data]
  cases hs : regexp.search tabPattern L.data <;> simp [hlen]

/-- C2 at the line of two tabs and `foo`. -/
theorem C2_Tab_conforms_iff_witness :
    "\t\tfoo" ≠ "" ∧ Tab "\t\tfoo" = Result.nil :=
  ⟨by decide,
    (C2_Tab_conforms_iff "\t\tfoo" (by decide)).1.2
      ⟨2, 'f', ['o', 'o'], by decide, by decide, by decide⟩⟩

/-- C3: `Indentation(L, "space", N)` equals `Space(L, N)`; `Indentation(L, "tab", N)` equals
`Tab(L)`, whatever `N`; and for every other style, the empty one included,
`Indentation(L, style, N)` conforms. -/
theorem C3_Indentation_dispatch (L : String) (N : Int) (style : String) :
    Indentation L "space" N = Space L N ∧
    Indentation L "tab" N = Tab L ∧
    (style ≠ "space" → style ≠ "tab" → Indentation L style N = Result.nil) := by
  refine ⟨by simp [Indentation], ?_, ?_⟩
  · have h : ("tab" : String) ≠ "space" := by decide
    simp [Indentation, h]
  · intro h1 h2
    simp [Indentation, h1, h2]

/-- C3 at a badly indented line with the empty style. -/
theorem C3_Indentation_dispatch_witness :
    ("" ≠ "space" ∧ "" ≠ "tab") ∧ Indentation " \t x" "" 4 = Result.nil :=
  ⟨by decide, (C3_Indentation_dispatch " \t x" 4 "").2.2 (by decide) (by decide)⟩

/-- C4: for every line `L` without a line feed, `TrailingWhitespace(L, true)` conforms iff `L` is
empty or its last character is neither a space nor a tab; and every non-empty line made only of
spaces and tabs is a violation. -/
theorem C4_TrailingWhitespace_enabled (L : String) (hL : '\n' ∉ L.data) :
    (TrailingWhitespace L true = Result.nil ↔
      L = "" ∨ ∃ init last, L.data = init ++ [last] ∧ last ≠ ' ' ∧ last ≠ '\t') ∧
    (L ≠ "" → (∀ c ∈ L.data, c = ' ' ∨ c = '\t') →
      TrailingWhitespace L true = Result.err "Trailing whitespace") := by
  have key : regexp.search trailingWhitespacePattern L.data = true ↔
      ∃ init last, L.data = init ++ [last] ∧ (last = ' ' ∨ last = '\t') := by
    rw [search_trailingWhitespacePattern]
    exact ⟨fun h => h.2, fun h => ⟨hL, h⟩⟩
  rw [TrailingWhitespace_eq]
  constructor
  · constructor
    · intro h
      have hns : ¬ regexp.search trailingWhitespacePattern L.data = true := by
        intro hs
        simp [hs] at h
      rcases eq_nil_or_snoc L.data with hnil | ⟨init, last, hcat⟩
      · left
        exact String.ext hnil
      · right
        refine ⟨init, last, hcat, ?_, ?_⟩
        · intro hl
          exact hns (key.2 ⟨init, last, hcat, Or.inl hl⟩)
        · intro hl
          exact hns (key.2 ⟨init, last, hcat, Or.inr hl⟩)
    · intro h
      have hns : ¬ regexp.search trailingWhitespacePattern L.data = true := by
        intro hs
        obtain ⟨init, last, hcat, hlast⟩ := key.1 hs
        rcases h with h | ⟨init2, last2, hcat2, h1, h2⟩
        · rw [h] at hcat
          simp at hcat
        · rw [hcat] at hcat2
          have := List.append_inj' hcat2 rfl
          have hl : last = last2 := by simpa using this.2
          subst hl
          rcases hlast with h | h
          · exact h1 h
          · exact h2 h
      simp [hns]
  · intro hne hall
    have hs : regexp.search trailingWhitespacePattern L.data = true := by
      apply key.2
      rcases eq_nil_or_snoc L.data with hnil | ⟨init, last, hcat⟩
      · exact absurd (String.ext hnil) hne
      · exact ⟨init, last, hcat, hall last (by rw [hcat]; simp)⟩
    simp [hs]

/-- C4 at the line `"foo "`, which has no line feed and ends with a space. -/
theorem C4_TrailingWhitespace_enabled_witness :
    '\n' ∉ "foo ".data ∧ TrailingWhitespace "foo " true ≠ Result.nil :=
  ⟨by decide, fun h =>
    match (C4_TrailingWhitespace_enabled "foo " (by decide)).1.1 h with
    | Or.inl h0 => absurd h0 (by decide)
    | Or.inr ⟨init, last, hcat, h1, _⟩ => by
      have := List.append_inj' (hcat.symm.trans (show "foo ".data = ['f', 'o', 'o'] ++ [' '] from rfl)) rfl
      exact h1 (by simpa using this.2)⟩

/-- C5: with a resolver that maps `"lf"`, `"cr"`, `"crlf"` to `"\n"`, `"\r"`, `"\r\n"`, for each
of the three kinds `FinalNewline(C, true, K)` conforms iff the content ends with the terminator
of `K`; and the empty content is a violation for each of the three kinds. -/
theorem C5_FinalNewline_enabled (g : String → String) (hlf : g "lf" = "\n")
    (hcr : g "cr" = "\r") (hcrlf : g "crlf" = "\r\n") (C : String) :
    (FinalNewline g C true "lf" = Result.nil ↔ ['\n'] <:+ C.data) ∧
    (FinalNewline g C true "cr" = Result.nil ↔ ['\r'] <:+ C.data) ∧
    (FinalNewline g C true "crlf" = Result.nil ↔ ['\r', '\n'] <:+ C.data) ∧
    FinalNewline g "" true "lf" = Result.err "Wrong line endings or new final newline" ∧
    FinalNewline g "" true "cr" = Result.err "Wrong line endings or new final newline" ∧
    FinalNewline g "" true "crlf" = Result.err "Wrong line endings or new final newline" := by
  have e1 : ("\n" : String).data = ['\n'] := rfl
  have e2 : ("\r" : String).data = ['\r'] := rfl
  have e3 : ("\r\n" : String).data = ['\r', '\n'] := rfl
  have e0 : ("" : String).data = [] := rfl
  refine ⟨?_, ?_, ?_, ?_, ?_, ?_⟩
  · rw [FinalNewline_nil_iff, hlf, e1]
  · rw [FinalNewline_nil_iff, hcr, e2]
  · rw [FinalNewline_nil_iff, hcrlf, e3]
  · rw [FinalNewline_err_iff, hlf, e1, e0]
    simp
  · rw [FinalNewline_err_iff, hcr, e2, e0]
    simp
  · rw [FinalNewline_err_iff, hcrlf, e3, e0]
    simp

/-- C5 with the resolver of the spec, at a content that ends with a line feed. -/
theorem C5_FinalNewline_enabled_witness :
    (utils.GetEolChar "lf" = "\n" ∧ utils.GetEolChar "cr" = "\r" ∧
      utils.GetEolChar "crlf" = "\r\n") ∧
    FinalNewline utils.GetEolChar "a\n" true "lf" = Result.nil :=
  ⟨by decide,
    (C5_FinalNewline_enabled utils.GetEolChar (by decide) (by decide) (by decide) "a\n").1.2
      (by decide)⟩

/-- C6: with `"\r\n"` for `"crlf"`, `LineEnding(C, "crlf")` conforms iff the content has no bare
terminator character: every carriage return is immediately followed by a line feed and every
line feed is immediately preceded by a carriage return. -/
theorem C6_LineEnding_crlf (g : String → String) (hcrlf : g "crlf" = "\r\n") (C : String) :
    LineEnding g C "crlf" = Result.nil ↔
      (∀ i, C.data[i]? = some '\r' → C.data[i + 1]? = some '\n') ∧
      (∀ i, C.data[i]? = some '\n' → ∃ j, i = j + 1 ∧ C.data[j]? = some '\r') :=
  LineEnding_crlf_nil_iff g hcrlf C

/-- C6 with the resolver of the spec: a content with a bare line feed does not conform. -/
theorem C6_LineEnding_crlf_witness :
    utils.GetEolChar "crlf" = "\r\n" ∧
    LineEnding utils.GetEolChar "a\r\nb\n" "crlf" ≠ Result.nil :=
  ⟨by decide, fun h =>
    match ((C6_LineEnding_crlf utils.GetEolChar (by decide) "a\r\nb\n").1 h).2 4 (by decide) with
    | ⟨j, hj, hr⟩ => by
      have hj3 : j = 3 := by omega
      subst hj3
      exact absurd hr (by decide)⟩

/-- C7: with `"\n"` for `"lf"` and `"\r"` for `"cr"`, `LineEnding(C, "lf")` conforms iff the
content has no carriage return and `LineEnding(C, "cr")` conforms iff it has no line feed. So a
content whose only terminators are line feeds conforms to `"lf"`, it violates once a `"\r\n"` is
inserted anywhere, and a content without any terminator conforms. -/
theorem C7_LineEnding_lf_cr (g : String → String) (hlf : g "lf" = "\n") (hcr : g "cr" = "\r")
    (C : String) :
    (LineEnding g C "lf" = Result.nil ↔ '\r' ∉ C.data) ∧
    (LineEnding g C "cr" = Result.nil ↔ '\n' ∉ C.data) ∧
    ('\r' ∉ C.data →
      LineEnding g C "lf" = Result.nil ∧
      ∀ pre post, C.data = pre ++ post →
        LineEnding g (String.mk (pre ++ '\r' :: '\n' :: post)) "lf" =
          Result.err "Not all lines have the correct end of line character") ∧
    ('\r' ∉ C.data → '\n' ∉ C.data →
      LineEnding g C "lf" = Result.nil ∧ LineEnding g C "cr" = Result.nil) := by
  refine ⟨LineEnding_lf_nil_iff g hlf C, LineEnding_cr_nil_iff g hcr C, ?_, ?_⟩
  · intro h1
    refine ⟨(LineEnding_lf_nil_iff g hlf C).2 h1, ?_⟩
    intro pre post _
    rw [LineEnding_lf_eq g hlf]
    have hc : ¬ (pre ++ '\r' :: '\n' :: post).count '\r' = 0 := by
      rw [List.count_eq_zero]
      simp
    simp [hc]
  · intro h1 h2
    exact ⟨(LineEnding_lf_nil_iff g hlf C).2 h1, (LineEnding_cr_nil_iff g hcr C).2 h2⟩

/-- C7 with the resolver of the spec, at a content whose terminators are line feeds. -/
theorem C7_LineEnding_lf_cr_witness :
    (utils.GetEolChar "lf" = "\n" ∧ utils.GetEolChar "cr" = "\r") ∧
    LineEnding utils.GetEolChar "a\nb\n" "lf" = Result.nil :=
  ⟨by decide,
    (C7_LineEnding_lf_cr utils.GetEolChar (by decide) (by decide) "a\nb\n").1.2 (by decide)⟩

/-- C8: a disabled flag makes the rule inactive: `TrailingWhitespace(L, false)` conforms for
every line, and `FinalNewline(C, false, K)` conforms for every content and kind, whatever the
resolver. -/
theorem C8_disabled_flags (g : String → String) (L C K : String) :
    TrailingWhitespace L false = Result.nil ∧ FinalNewline g C false K = Result.nil := by
  constructor
  · simp [TrailingWhitespace]
  · simp [FinalNewline]

/-- C9: for every content and every kind other than `"lf"`, `"cr"`, `"crlf"`, the empty kind
included, `LineEnding(C, K)` conforms, whatever text the resolver returns for the kind. -/
theorem C9_LineEnding_other_kind (g : String → String) (C K : String) (h1 : K ≠ "lf")
    (h2 : K ≠ "cr") (h3 : K ≠ "crlf") :
    LineEnding g C K = Result.nil := by
  simp [LineEnding, h1, h2, h3]

/-- C9 at a content of mixed terminators, with a resolver that returns the empty text. -/
theorem C9_LineEnding_other_kind_witness :
    ("latin1" ≠ "lf" ∧ "latin1" ≠ "cr" ∧ "latin1" ≠ "crlf") ∧
    LineEnding (fun _ => "") "a\r\nb\nc\r" "latin1" = Result.nil :=
  ⟨by decide,
    C9_LineEnding_other_kind (fun _ => "") "a\r\nb\nc\r" "latin1" (by decide) (by decide)
      (by decide)⟩

/-- C10: with a resolver that maps every kind other than `"lf"`, `"cr"`, `"crlf"` to the empty
text, `FinalNewline(C, true, K)` conforms for every content, the empty one included, and every
such kind. -/
theorem C10_FinalNewline_other_kind (g : String → String)
    (hg : ∀ K, K ≠ "lf" → K ≠ "cr" → K ≠ "crlf" → g K = "") (C K : String) (h1 : K ≠ "lf")
    (h2 : K ≠ "cr") (h3 : K ≠ "crlf") :
    FinalNewline g C true K = Result.nil ∧ FinalNewline g "" true K = Result.nil := by
  have e0 : ("" : String).data = [] := rfl
  constructor
  · rw [FinalNewline_nil_iff, hg K h1 h2 h3, e0]
    exact List.nil_suffix
  · rw [FinalNewline_nil_iff, hg K h1 h2 h3, e0]

/-- C10 with the resolver of the spec, at the empty kind. -/
theorem C10_FinalNewline_other_kind_witness :
    (∀ K, K ≠ "lf" → K ≠ "cr" → K ≠ "crlf" → utils.GetEolChar K = "") ∧
    ("" ≠ "lf" ∧ "" ≠ "cr" ∧ "" ≠ "crlf") ∧
    FinalNewline utils.GetEolChar "no newline" true "" = Result.nil :=
  ⟨fun K h1 h2 h3 => by simp [utils.GetEolChar, h1, h2, h3], by decide,
    (C10_FinalNewline_other_kind utils.GetEolChar
      (fun K h1 h2 h3 => by simp [utils.GetEolChar, h1, h2, h3]) "no newline" ""
      (by decide) (by decide) (by decide)).1⟩

/-- C11: nothing-to-check cases conform: `Space("", N)` conforms for every integer `N`,
`Space(L, N)` conforms for every line `L` when `N <= 0`, and `Tab("")` conforms. -/
theorem C11_nothing_to_check (L : String) (N : Int) :
    Space "" N = Result.nil ∧ (N ≤ 0 → Space L N = Result.nil) ∧ Tab "" = Result.nil :=
  ⟨Space_empty N, Space_nonpos L N, Tab_empty⟩

/-- C11 at a badly indented line with the size `-3`. -/
theorem C11_nothing_to_check_witness :
    (-3 : Int) ≤ 0 ∧ Space "   x" (-3) = Result.nil :=
  ⟨by decide, (C11_nothing_to_check "   x" (-3)).2.1 (by decide)⟩

/-- C12, as stated, fails in three ways. The leading run of `"\tx"` is one tab, a multiple of
the size 1, yet `Space` returns the violation: the run must be made of spaces. The leading run
of the line of four spaces has length 4, a multiple of the size 4, yet `Space` returns the
violation: a further character must follow the run. And the leading run of `"x"` has length 0,
a multiple of 1001, yet `Space("x", 1001)` aborts. -/
theorem C12_counterexample :
    ¬ (Space "\tx" 1 = Result.nil ↔
        ((∃ k, (leadingRun "\tx".data).length = k * (1 : Int).toNat) ∨
          ∃ k tl, "\tx".data = List.replicate (k * (1 : Int).toNat + 1) ' ' ++ '*' :: tl)) ∧
    ¬ (Space "    " 4 = Result.nil ↔
        ((∃ k, (leadingRun "    ".data).length = k * (4 : Int).toNat) ∨
          ∃ k tl, "    ".data = List.replicate (k * (4 : Int).toNat + 1) ' ' ++ '*' :: tl)) ∧
    ¬ (Space "x" 1001 = Result.nil ↔
        ((∃ k, (leadingRun "x".data).length = k * (1001 : Int).toNat) ∨
          ∃ k tl, "x".data = List.replicate (k * (1001 : Int).toNat + 1) ' ' ++ '*' :: tl)) := by
  refine ⟨?_, ?_, ?_⟩
  · intro h
    exact absurd (h.2 (Or.inl ⟨1, by decide⟩)) (by decide)
  · intro h
    exact absurd (h.2 (Or.inl ⟨1, by decide⟩)) (by decide)
  · intro h
    exact absurd (h.2 (Or.inl ⟨0, by decide⟩)) (by decide)

/-- C12 (amended): for every line `L` and every size `N` from 1 to 1000, `Space(L, N)` conforms
iff the leading run of whitespace of `L` is made of spaces only, its length is a multiple of
`N` and the line is empty or goes on after the run, or the block-comment exception applies (the
line begins with `k * N + 1` spaces immediately followed by an asterisk); four spaces then `x`
conforms for the size 4 and three spaces then `x` violates for the size 4. -/
theorem C12_Space_leading_run (L : String) (N : Int) (h0 : 0 < N) (h1 : N ≤ 1000) :
    (Space L N = Result.nil ↔
      ((∀ c ∈ leadingRun L.data, c = ' ') ∧
        (∃ k, (leadingRun L.data).length = k * N.toNat) ∧
        (L = "" ∨ (leadingRun L.data).length < L.data.length)) ∨
      ∃ k tl, L.data = List.replicate (k * N.toNat + 1) ' ' ++ '*' :: tl) ∧
    Space "    x" 4 = Result.nil ∧
    Space "   x" 4 = Result.err "Wrong amount of left-padding spaces(want multiple of 4)" := by
  refine ⟨?_, by decide, by decide⟩
  by_cases hL : L = ""
  · subst hL
    rw [Space_empty]
    simp only [true_iff]
    exact Or.inl ⟨by simp [leadingRun], ⟨0, by simp [leadingRun]⟩, Or.inl trivial⟩
  · rw [Space_nil_iff L N hL h0 h1]
    constructor
    · rintro ⟨k, rest, hdata, ⟨c, tl, rfl, hc1, hc2⟩ | ⟨tl, rfl⟩⟩
      · left
        have hrun : leadingRun L.data = List.replicate (k * N.toNat) ' ' := by
          rw [hdata]
          exact leadingRun_append_cons _ c tl
            (fun x hx => Or.inl (List.eq_of_mem_replicate hx)) hc1 hc2
        rw [hrun]
        refine ⟨fun x hx => List.eq_of_mem_replicate hx, ⟨k, by simp⟩, Or.inr ?_⟩
        rw [hdata]
        simp
      · right
        refine ⟨k, tl, ?_⟩
        rw [hdata, List.replicate_succ', List.append_assoc]
        rfl
    · rintro (⟨hsp, ⟨k, hk⟩, hor⟩ | ⟨k, tl, hdata⟩)
      · have hlt : (leadingRun L.data).length < L.data.length := by
          rcases hor with h | h
          · exact absurd h hL
          · exact h
        rcases (leadingRun_spec L.data).2 with h | ⟨c, tl, h, hc1, hc2⟩
        · rw [← h] at hlt
          exact absurd hlt (lt_irrefl _)
        · refine ⟨k, c :: tl, ?_, Or.inl ⟨c, tl, rfl, hc1, hc2⟩⟩
          rw [← hk, ← List.eq_replicate_of_mem hsp]
          exact h
      · refine ⟨k, ' ' :: '*' :: tl, ?_, Or.inr ⟨tl, rfl⟩⟩
        rw [hdata, List.replicate_succ', List.append_assoc]
        rfl

/-- C12 (amended) at the line of four spaces and `x`, size 2. -/
theorem C12_Space_leading_run_witness :
    ((0 : Int) < 2 ∧ (2 : Int) ≤ 1000) ∧ Space "    x" 2 = Result.nil :=
  ⟨by decide,
    (C12_Space_leading_run "    x" 2 (by decide) (by decide)).1.2
      (Or.inl ⟨by decide, ⟨2, by decide⟩, Or.inr (by decide)⟩)⟩

/-- C13, as stated, fails: the leading run of the line made of one tab contains no space, yet
`Tab` returns the violation, because no further character follows the run. -/
theorem C13_counterexample :
    ¬ (Tab "\t" = Result.nil ↔ ' ' ∉ leadingRun "\t".data) := by
  intro h
  exact absurd (h.2 (by decide)) (by decide)

/-- C13 (amended): for every line `L`, `Tab(L)` conforms iff the leading run of whitespace of
`L` contains no space and the line is empty or goes on after the run; two tabs then `foo`
conforms and a tab, a space, then `foo` violates. -/
theorem C13_Tab_leading_run (L : String) :
    (Tab L = Result.nil ↔
      ' ' ∉ leadingRun L.data ∧ (L = "" ∨ (leadingRun L.data).length < L.data.length)) ∧
    Tab "\t\tfoo" = Result.nil ∧
    Tab "\t foo" = Result.err "Wrong indentation type(spaces instead of tabs)" := by
  refine ⟨?_, by decide, by decide⟩
  by_cases hL : L = ""
  · subst hL
    rw [Tab_empty]
    simp only [true_iff]
    exact ⟨by simp [leadingRun], Or.inl trivial⟩
  · rw [Tab_nil_iff L hL]
    constructor
    · rintro ⟨k, c, rest, hdata, hc1, hc2⟩
      have hrun : leadingRun L.data = List.replicate k '\t' := by
        rw [hdata]
        exact leadingRun_append_cons _ c rest
          (fun x hx => Or.inr (List.eq_of_mem_replicate hx)) hc1 hc2
      rw [hrun]
      refine ⟨fun hmem => ?_, Or.inr ?_⟩
      · exact absurd (List.eq_of_mem_replicate hmem) (by decide)
      · rw [hdata]
        simp
    · rintro ⟨hns, hor⟩
      have hlt : (leadingRun L.data).length < L.data.length := by
        rcases hor with h | h
        · exact absurd h hL
        · exact h
      have htab : ∀ x ∈ leadingRun L.data, x = '\t' := by
        intro x hx
        rcases (leadingRun_spec L.data).1 x hx with h | h
        · rw [h] at hx
          exact absurd hx hns
        · exact h
      rcases (leadingRun_spec L.data).2 with h | ⟨c, tl, h, hc1, hc2⟩
      · rw [← h] at hlt
        exact absurd hlt (lt_irrefl _)
      · refine ⟨(leadingRun L.data).length, c, tl, ?_, hc1, hc2⟩
        rw [← List.eq_replicate_of_mem htab]
        exact h

/-- C14, as stated, fails: with the resolver of the spec the content of two line feeds conforms
for `"lf"`, although the part before its final line feed ends with a line feed as well. -/
theorem C14_counterexample :
    ¬ (FinalNewline utils.GetEolChar "\n\n" true "lf" = Result.nil ↔
        ∃ pre, "\n\n".data = pre ++ ['\n'] ∧ ¬ ['\n'] <:+ pre) := by
  intro h
  obtain ⟨pre, hpre, hn⟩ := h.1 (by decide)
  have hp : pre = ['\n'] :=
    (List.append_inj' (hpre.symm.trans (show "\n\n".data = ['\n'] ++ ['\n'] from rfl)) rfl).1
  subst hp
  exact hn ⟨[], rfl⟩

/-- C14 (amended): with a resolver that maps `"lf"`, `"cr"`, `"crlf"` to `"\n"`, `"\r"`,
`"\r\n"`, `FinalNewline(C, true, K)` conforms iff the content ends with the terminator of `K`,
whatever stands before that final terminator: a content that ends with the terminator twice
conforms as well. -/
theorem C14_FinalNewline_last_terminator (g : String → String) (hlf : g "lf" = "\n")
    (hcr : g "cr" = "\r") (hcrlf : g "crlf" = "\r\n") (C : String) :
    (FinalNewline g C true "lf" = Result.nil ↔ ∃ pre, C.data = pre ++ ['\n']) ∧
    (FinalNewline g C true "cr" = Result.nil ↔ ∃ pre, C.data = pre ++ ['\r']) ∧
    (FinalNewline g C true "crlf" = Result.nil ↔ ∃ pre, C.data = pre ++ ['\r', '\n']) ∧
    FinalNewline g (String.mk (C.data ++ ['\n'] ++ ['\n'])) true "lf" = Result.nil ∧
    FinalNewline g (String.mk (C.data ++ ['\r'] ++ ['\r'])) true "cr" = Result.nil ∧
    FinalNewline g (String.mk (C.data ++ ['\r', '\n'] ++ ['\r', '\n'])) true "crlf" =
      Result.nil := by
  have e1 : ("\n" : String).data = ['\n'] := rfl
  have e2 : ("\r" : String).data = ['\r'] := rfl
  have e3 : ("\r\n" : String).data = ['\r', '\n'] := rfl
  have hsuf : ∀ (a b : List Char), a <:+ b ↔ ∃ pre, b = pre ++ a := by
    intro a b
    constructor
    · rintro ⟨t, ht⟩
      exact ⟨t, ht.symm⟩
    · rintro ⟨t, ht⟩
      exact ⟨t, ht.symm⟩
  refine ⟨?_, ?_, ?_, ?_, ?_, ?_⟩
  · rw [FinalNewline_nil_iff, hlf, e1, hsuf]
  · rw [FinalNewline_nil_iff, hcr, e2, hsuf]
  · rw [FinalNewline_nil_iff, hcrlf, e3, hsuf]
  · rw [FinalNewline_nil_iff, hlf, e1]
    exact ⟨C.data ++ ['\n'], rfl⟩
  · rw [FinalNewline_nil_iff, hcr, e2]
    exact ⟨C.data ++ ['\r'], rfl⟩
  · rw [FinalNewline_nil_iff, hcrlf, e3]
    exact ⟨C.data ++ ['\r', '\n'], rfl⟩

/-- C14 (amended) with the resolver of the spec, at a content with two final line feeds. -/
theorem C14_FinalNewline_last_terminator_witness :
    (utils.GetEolChar "lf" = "\n" ∧ utils.GetEolChar "cr" = "\r" ∧
      utils.GetEolChar "crlf" = "\r\n") ∧
    FinalNewline utils.GetEolChar "a\n\n" true "lf" = Result.nil :=
  ⟨by decide,
    (C14_FinalNewline_last_terminator utils.GetEolChar (by decide) (by decide) (by decide)
      "a\n\n").1.2 ⟨['a', '\n'], rfl⟩⟩

/-- C15 at its failing input: the pattern that `Space` builds from the size 1001 does not
compile and `Space("x", 1001)` aborts, while the size 1000 is still accepted. -/
theorem C15_Space_aborts_above_1000 :
    regexp.MatchString (spacePattern 1001) "x" =
      Except.error regexp.Error.ErrInvalidRepeatSize ∧
    Space "x" 1001 = Result.panic regexp.Error.ErrInvalidRepeatSize ∧
    Space "x" 1000 = Result.nil := by
  refine ⟨?_, by decide, ?_⟩
  · have hok : regexp.repeatSizesOK (spacePattern 1001) = false := by decide
    simp [regexp.MatchString, hok]
  exact (Space_nil_iff "x" 1000 (by decide) (by decide) (by decide)).2
    ⟨0, ['x'], by simp, Or.inl ⟨'x', [], rfl, by decide, by decide⟩⟩

/-- C16: with a resolver that maps `"lf"`, `"cr"`, `"crlf"` to `"\n"`, `"\r"`, `"\r\n"`, for each
pair of distinct kinds `LineEnding` conforms for both iff the content has neither a carriage
return nor a line feed; and such a content conforms for all three kinds. -/
theorem C16_LineEnding_exclusive (g : String → String) (hlf : g "lf" = "\n")
    (hcr : g "cr" = "\r") (hcrlf : g "crlf" = "\r\n") (C : String) :
    ((LineEnding g C "lf" = Result.nil ∧ LineEnding g C "cr" = Result.nil) ↔
      ('\r' ∉ C.data ∧ '\n' ∉ C.data)) ∧
    ((LineEnding g C "lf" = Result.nil ∧ LineEnding g C "crlf" = Result.nil) ↔
      ('\r' ∉ C.data ∧ '\n' ∉ C.data)) ∧
    ((LineEnding g C "cr" = Result.nil ∧ LineEnding g C "crlf" = Result.nil) ↔
      ('\r' ∉ C.data ∧ '\n' ∉ C.data)) ∧
    (('\r' ∉ C.data ∧ '\n' ∉ C.data) →
      LineEnding g C "lf" = Result.nil ∧ LineEnding g C "cr" = Result.nil ∧
        LineEnding g C "crlf" = Result.nil) := by
  rw [LineEnding_lf_nil_iff g hlf C, LineEnding_cr_nil_iff g hcr C,
    LineEnding_crlf_nil_iff g hcrlf C]
  refine ⟨Iff.rfl, ?_, ?_, ?_⟩
  · constructor
    · rintro ⟨h1, _, hb⟩
      refine ⟨h1, fun hmem => ?_⟩
      obtain ⟨i, hi⟩ := List.mem_iff_getElem?.1 hmem
      obtain ⟨j, _, hj⟩ := hb i hi
      exact h1 (List.mem_iff_getElem?.2 ⟨j, hj⟩)
    · rintro ⟨h1, h2⟩
      exact ⟨h1, no_bare_of_no_terminator C.data h1 h2⟩
  · constructor
    · rintro ⟨h2, ha, _⟩
      refine ⟨fun hmem => ?_, h2⟩
      obtain ⟨i, hi⟩ := List.mem_iff_getElem?.1 hmem
      exact h2 (List.mem_iff_getElem?.2 ⟨i + 1, ha i hi⟩)
    · rintro ⟨h1, h2⟩
      exact ⟨h2, no_bare_of_no_terminator C.data h1 h2⟩
  · rintro ⟨h1, h2⟩
    exact ⟨h1, h2, no_bare_of_no_terminator C.data h1 h2⟩

/-- C16 with the resolver of the spec: a content with a line feed does not conform for both
`"lf"` and `"crlf"`. -/
theorem C16_LineEnding_exclusive_witness :
    (utils.GetEolChar "lf" = "\n" ∧ utils.GetEolChar "cr" = "\r" ∧
      utils.GetEolChar "crlf" = "\r\n") ∧
    ¬ (LineEnding utils.GetEolChar "a\nb" "lf" = Result.nil ∧
        LineEnding utils.GetEolChar "a\nb" "crlf" = Result.nil) :=
  ⟨by decide, fun h =>
    ((C16_LineEnding_exclusive utils.GetEolChar (by decide) (by decide) (by decide)
      "a\nb").2.1.1 h).2 (by decide)⟩

/-- C17: with a resolver that maps `"lf"`, `"cr"`, `"crlf"` to `"\n"`, `"\r"`, `"\r\n"`, a content
that conforms to `FinalNewline` for `"crlf"` conforms for `"lf"` as well; the converse fails for
some content; and no content conforms for both `"lf"` and `"cr"`. -/
theorem C17_FinalNewline_lf_accepts_crlf (g : String → String) (hlf : g "lf" = "\n")
    (hcr : g "cr" = "\r") (hcrlf : g "crlf" = "\r\n") :
    (∀ C, FinalNewline g C true "crlf" = Result.nil → FinalNewline g C true "lf" = Result.nil) ∧
    (∃ C, FinalNewline g C true "lf" = Result.nil ∧ FinalNewline g C true "crlf" ≠ Result.nil) ∧
    (∀ C, ¬ (FinalNewline g C true "lf" = Result.nil ∧
      FinalNewline g C true "cr" = Result.nil)) := by
  have e1 : ("\n" : String).data = ['\n'] := rfl
  have e2 : ("\r" : String).data = ['\r'] := rfl
  have e3 : ("\r\n" : String).data = ['\r', '\n'] := rfl
  refine ⟨?_, ⟨"a\n", ?_, ?_⟩, ?_⟩
  · intro C h
    rw [FinalNewline_nil_iff, hcrlf, e3] at h
    rw [FinalNewline_nil_iff, hlf, e1]
    exact List.IsSuffix.trans ⟨['\r'], rfl⟩ h
  · rw [FinalNewline_nil_iff, hlf, e1]
    exact ⟨['a'], rfl⟩
  · rw [Ne, FinalNewline_nil_iff, hcrlf, e3]
    rintro ⟨t, ht⟩
    have h := List.append_inj' (ht.trans (show "a\n".data = [] ++ ['a', '\n'] from rfl)) rfl
    exact absurd (List.cons.inj h.2).1 (by decide)
  · intro C
    rw [FinalNewline_nil_iff, FinalNewline_nil_iff, hlf, hcr, e1, e2]
    rintro ⟨⟨t1, h1⟩, ⟨t2, h2⟩⟩
    have h := List.append_inj' (h1.trans h2.symm) rfl
    exact absurd (List.cons.inj h.2).1 (by decide)

/-- C17 with the resolver of the spec, at a content that ends with `"\r\n"`. -/
theorem C17_FinalNewline_lf_accepts_crlf_witness :
    (utils.GetEolChar "lf" = "\n" ∧ utils.GetEolChar "cr" = "\r" ∧
      utils.GetEolChar "crlf" = "\r\n") ∧
    FinalNewline utils.GetEolChar "a\r\n" true "lf" = Result.nil :=
  ⟨by decide,
    (C17_FinalNewline_lf_accepts_crlf utils.GetEolChar (by decide) (by decide) (by decide)).1
      "a\r\n" (by decide)⟩

/-- C18: for every non-empty line `L` and every size `N` from 1 to 1000 (the sizes for which
`Space` returns), if `Space(L, N)` and `Tab(L)` both conform then the first character of `L` is
neither a space nor a tab; so a line that starts with a space or a tab gets the violation of at
least one of the two checks. -/
theorem C18_Space_Tab_exclusive (L : String) (N : Int) (hL : L ≠ "") (h0 : 0 < N)
    (h1 : N ≤ 1000) :
    (Space L N = Result.nil → Tab L = Result.nil →
      ∃ c tl, L.data = c :: tl ∧ c ≠ ' ' ∧ c ≠ '\t') ∧
    ((∃ c tl, L.data = c :: tl ∧ (c = ' ' ∨ c = '\t')) →
      Space L N = Result.err
          ("Wrong amount of left-padding spaces(want multiple of " ++ toString N ++ ")") ∨
        Tab L = Result.err "Wrong indentation type(spaces instead of tabs)") := by
  refine ⟨first_char_of_Space_Tab L N hL h0 h1, ?_⟩
  rintro ⟨c, tl, hdata, hc⟩
  by_cases hS : Space L N = Result.nil
  · by_cases hT : Tab L = Result.nil
    · exfalso
      obtain ⟨d, tl2, hd, hd1, hd2⟩ := first_char_of_Space_Tab L N hL h0 h1 hS hT
      rw [hdata] at hd
      have hcd : c = d := (List.cons.inj hd).1
      subst hcd
      rcases hc with h | h
      · exact hd1 h
      · exact hd2 h
    · exact Or.inr (Tab_err_of_ne_nil L hT)
  · exact Or.inl (Space_err_of_ne_nil L N h0 h1 hS)

/-- C18 at a line indented with a tab, size 2: `Space` returns its violation there. -/
theorem C18_Space_Tab_exclusive_witness :
    ("\tx" ≠ "" ∧ (0 : Int) < 2 ∧ (2 : Int) ≤ 1000) ∧
    (Space "\tx" 2 = Result.err "Wrong amount of left-padding spaces(want multiple of 2)" ∨
      Tab "\tx" = Result.err "Wrong indentation type(spaces instead of tabs)") :=
  ⟨by decide,
    (C18_Space_Tab_exclusive "\tx" 2 (by decide) (by decide) (by decide)).2
      ⟨'\t', ['x'], rfl, Or.inr rfl⟩⟩

/-- C19: for every line `L` and all sizes `M`, `N` from 1 to 1000 with `M` dividing `N`, if
`Space(L, N)` conforms then `Space(L, M)` conforms. -/
theorem C19_Space_divisor (L : String) (M N : Int) (hM : 0 < M) (hN : 0 < N) (hM1 : M ≤ 1000)
    (hN1 : N ≤ 1000) (hdvd : M ∣ N) (h : Space L N = Result.nil) :
    Space L M = Result.nil := by
  by_cases hL : L = ""
  · subst hL
    exact Space_empty M
  · obtain ⟨k, rest, hdata, hr⟩ := (Space_nil_iff L N hL hN hN1).1 h
    obtain ⟨q, hq⟩ := toNat_dvd_toNat M N hM hN hdvd
    refine (Space_nil_iff L M hL hM hM1).2 ⟨k * q, rest, ?_, hr⟩
    rw [hdata, hq, Nat.mul_assoc, Nat.mul_comm q M.toNat]

/-- C19 at the line of four spaces and `x`, with the size 2 that divides 4. -/
theorem C19_Space_divisor_witness :
    ((0 : Int) < 2 ∧ (0 : Int) < 4 ∧ (2 : Int) ≤ 1000 ∧ (4 : Int) ≤ 1000 ∧ (2 : Int) ∣ 4 ∧
      Space "    x" 4 = Result.nil) ∧
    Space "    x" 2 = Result.nil :=
  ⟨⟨by decide, by decide, by decide, by decide, ⟨2, rfl⟩, by decide⟩,
    C19_Space_divisor "    x" 2 4 (by decide) (by decide) (by decide) (by decide) ⟨2, rfl⟩
      (by decide)⟩

/-- C20: for every string `L` that contains a line feed, `TrailingWhitespace(L, true)` conforms,
also when `L` ends with a space or a tab. -/
theorem C20_TrailingWhitespace_line_feed (L : String) (hL : '\n' ∈ L.data) :
    TrailingWhitespace L true = Result.nil := by
  rw [TrailingWhitespace_eq]
  have hs : ¬ regexp.search trailingWhitespacePattern L.data = true :=
    fun hs => ((search_trailingWhitespacePattern L.data).1 hs).1 hL
  simp [hs]

/-- C20 at a string with a line feed that ends with a space. -/
theorem C20_TrailingWhitespace_line_feed_witness :
    '\n' ∈ "foo \nbar ".data ∧ TrailingWhitespace "foo \nbar " true = Result.nil :=
  ⟨by decide, C20_TrailingWhitespace_line_feed "foo \nbar " (by decide)⟩
